import Mathlib

/-!
# MBWSServer: the fan-out / fan-in aggregation of `renderMainView`

A shallow embedding of `src/main.go`, lines 73-131 (`statusReturn` and the
aggregation part of `renderMainView`), and theorems about it.

* Go `int` is a 64-bit two's complement integer: values are `Int`, and every
  addition wraps explicitly (`wrapInt`).
* Go `float32` is modelled bit-exactly for the three operations the handler
  uses (conversion from `int`, division, multiplication), with round to
  nearest, ties to even.
* The `select` loop labelled `WAITLOOP` is a step function on an explicit
  state, run over the trace of events the `select` observes.
* The goroutines (valuation tasks, the `wg.Wait()` goroutine, the handler) form
  a transition system driven by a schedule of atomic actions.

The aggregation runs only for a logged-in user that the store finds (lines
79-87); the session, the store and the renderer are outside of the model.
-/

namespace MBWSServer

/-! ## Go `int` -/

/-- Two's complement wrap-around of a mathematical integer into the range of a
64-bit Go `int`, `-2^63 ≤ x < 2^63`. -/
def wrapInt (x : Int) : Int := (x + 2 ^ 63) % 2 ^ 64 - 2 ^ 63

/-- Go `a + b` on `int`. -/
def addInt (a b : Int) : Int := wrapInt (a + b)

/-- Go `a - b` on `int`. -/
def subInt (a b : Int) : Int := wrapInt (a - b)

/-- The values a Go `int` can hold. -/
def IsInt64 (x : Int) : Prop := -2 ^ 63 ≤ x ∧ x < 2 ^ 63

instance (x : Int) : Decidable (IsInt64 x) := by unfold IsInt64; infer_instance

/-! ## Go `float32` -/

/-- An IEEE-754 binary32 value. `fin neg m e` is the finite number
`(-1)^neg * m * 2^e` with a 24-bit significand `m < 2^24` and
`-149 ≤ e ≤ 104`; normal numbers have `2^23 ≤ m`, subnormal numbers and the
two zeros have `e = -149`. -/
inductive Float32 where
  | nan
  | inf (neg : Bool)
  | fin (neg : Bool) (m : Nat) (e : Int)
  deriving DecidableEq

/-- Positive zero, the zero value of a `float32` field. -/
def Float32.zero : Float32 := .fin false 0 (-149)

/-- The rational number a finite `float32` denotes. -/
def Float32.toRat : Float32 → Option ℚ
  | .fin neg m e => some ((if neg then -1 else 1) * (m : ℚ) * (2 : ℚ) ^ e)
  | _ => none

/-- A value that is neither NaN nor an infinity. -/
def Float32.isFinite : Float32 → Bool
  | .fin _ _ _ => true
  | _ => false

/-- Normalisation of the positive quantity `n / d * 2^e`, which it keeps: the
exponent is moved until `2^23 ≤ n / d < 2^24`, or until `n / d < 2^23` at the
smallest exponent `-149`. Every iteration halves or doubles `n / d`; the first
argument bounds the number of iterations. -/
def f32Scale : Nat → Nat → Nat → Int → Nat × Nat × Int
  | 0, n, d, e => (n, d, e)
  | fuel + 1, n, d, e =>
    if 2 ^ 24 * d ≤ n ∨ e < -149 then f32Scale fuel n (2 * d) (e + 1)
    else if n < 2 ^ 23 * d ∧ -149 < e then f32Scale fuel (2 * n) d (e - 1)
    else (n, d, e)

/-- The integer nearest to `n / d`, the even one of the two when `n / d` is
half-way between them. -/
def roundHalfEven (n d : Nat) : Nat :=
  if 2 * (n % d) < d then n / d
  else if d < 2 * (n % d) then n / d + 1
  else if (n / d) % 2 = 0 then n / d else n / d + 1

/-- Rounding of `(-1)^neg * n / d * 2^e` to the nearest `float32`, ties to
even, overflowing to an infinity. The operands of the three operations below
have `n / d` between `2^-24` and `2^64` and `e` between `-298` and `253`: 200
iterations of `f32Scale` normalise them, 512 are allowed. -/
def f32Round (neg : Bool) (n d : Nat) (e : Int) : Float32 :=
  if n = 0 then .fin neg 0 (-149)
  else
    match f32Scale 512 n d e with
    | (n1, d1, e1) =>
      if roundHalfEven n1 d1 = 2 ^ 24 then
        (if 104 < e1 + 1 then .inf neg else .fin neg (2 ^ 23) (e1 + 1))
      else if 104 < e1 then .inf neg else .fin neg (roundHalfEven n1 d1) e1

/-- Go conversion `float32(i)` of an `int`. -/
def f32OfInt (i : Int) : Float32 := f32Round (decide (i < 0)) i.natAbs 1 0

/-- Go `x / y` on `float32`. Division by zero does not panic: it gives NaN for
`0 / 0` and an infinity otherwise. -/
def f32Div : Float32 → Float32 → Float32
  | .nan, _ => .nan
  | _, .nan => .nan
  | .inf _, .inf _ => .nan
  | .inf s, .fin t _ _ => .inf (xor s t)
  | .fin s _ _, .inf t => .fin (xor s t) 0 (-149)
  | .fin s m1 e1, .fin t m2 e2 =>
    if m2 = 0 then (if m1 = 0 then .nan else .inf (xor s t))
    else f32Round (xor s t) m1 m2 (e1 - e2)

/-- Go `x * y` on `float32`. -/
def f32Mul : Float32 → Float32 → Float32
  | .nan, _ => .nan
  | _, .nan => .nan
  | .inf s, .inf t => .inf (xor s t)
  | .inf s, .fin t m _ => if m = 0 then .nan else .inf (xor s t)
  | .fin s m _, .inf t => if m = 0 then .nan else .inf (xor s t)
  | .fin s m1 e1, .fin t m2 e2 => f32Round (xor s t) (m1 * m2) 1 (e1 + e2)

/-! ## Data model -/

/-- Modelled from the spec: the declaration of `StockStatus` is not in
`src/main.go`. Its fields are the ones `renderMainView` reads and writes: four
totals that are converted with `float32(...)` and are sums of `strconv.Atoi`
quantities and prices (Go `int`), and `Yield`, assigned a `float32`. -/
structure StockStatus where
  Spent : Int
  Earned : Int
  Remain : Int
  Income : Int
  Yield : Float32
  deriving DecidableEq

/-- The composite literal of line 93, `StockStatus` with no field given: every
field has its zero value. -/
def StockStatus.empty : StockStatus :=
  { Spent := 0, Earned := 0, Remain := 0, Income := 0, Yield := Float32.zero }

/-- Modelled from the spec: the declaration of `StockStatusMap` is not in
`src/main.go`. It is a Go map from the stock code (a string) to the status;
a finite map with unique keys, whose order of insertion is not observable. -/
abbrev StockStatusMap := Finmap (fun _ : String => StockStatus)

/-- The struct of lines 73-76. `status` is a pointer: `none` is `nil`. -/
structure statusReturn where
  code : String
  status : Option StockStatus
  deriving DecidableEq

/-! ## The merge loop, lines 106-121 -/

/-- What one execution of the `select` of line 108 observes. -/
inductive Event where
  | statusChan (ret : statusReturn)
  | doneChan
  deriving DecidableEq

/-- Tells whether an event is a completion or a result whose status is not
nil. -/
def Event.hasStatus : Event → Bool
  | .statusChan ret => ret.status.isSome
  | .doneChan => true

/-- A delivered result `(code, status)` with a non-nil status. -/
def result (r : String × StockStatus) : Event := .statusChan ⟨r.1, some r.2⟩

/-- Where the handler is: in the loop, past `break WAITLOOP`, or stopped by the
nil dereference of line 112. -/
inductive Phase where
  | collecting
  | done
  | panicked
  deriving DecidableEq

/-- The variables of `renderMainView` the loop works on. -/
structure LoopState where
  phase : Phase
  stockMap : StockStatusMap
  sum : StockStatus

/-- Lines 92-93: the empty map `make(StockStatusMap, 0)` and the zero `sum`. -/
def LoopState.init : LoopState :=
  { phase := .collecting, stockMap := ∅, sum := StockStatus.empty }

/-- Lines 111-115, the body of `case ret := <-statusChan` for a non-nil
`status`: the map entry is written, the four totals are increased, `Yield` is
not touched. -/
def mergeStatus (stockMap : StockStatusMap) (sum : StockStatus) (code : String)
    (status : StockStatus) : StockStatusMap × StockStatus :=
  (stockMap.insert code status,
   { sum with
     Spent := addInt sum.Spent status.Spent
     Earned := addInt sum.Earned status.Earned
     Remain := addInt sum.Remain status.Remain
     Income := addInt sum.Income status.Income })

/-- Line 121: `sum.Yield = float32((sum.Income)) / float32(sum.Spent) * 100`. -/
def computeYield (sum : StockStatus) : StockStatus :=
  { sum with Yield := f32Mul (f32Div (f32OfInt sum.Income) (f32OfInt sum.Spent)) (f32OfInt 100) }

/-- One iteration of `WAITLOOP`. A nil `status` is stored by line 111 and
dereferenced by line 112, which panics: the handler stops there and nothing is
rendered. After `break WAITLOOP` line 121 runs and the loop is never entered
again. -/
def waitLoopStep (st : LoopState) (ev : Event) : LoopState :=
  match st.phase with
  | .collecting =>
    match ev with
    | .statusChan ret =>
      match ret.status with
      | some status =>
        { st with stockMap := (mergeStatus st.stockMap st.sum ret.code status).1
                  sum := (mergeStatus st.stockMap st.sum ret.code status).2 }
      | none => { st with phase := .panicked }
    | .doneChan => { st with phase := .done, sum := computeYield st.sum }
  | _ => st

/-- The loop run over a trace of events, from a given state. -/
def waitLoopFrom (st : LoopState) (trace : List Event) : LoopState :=
  trace.foldl waitLoopStep st

/-- The loop run from the state of lines 92-93. -/
def waitLoop (trace : List Event) : LoopState := waitLoopFrom LoopState.init trace

/-- One step of a Go loop `for _, s := range stockMap` that adds `f(s)` to a
running total `t`. -/
def sumStep (f : StockStatus → Int) (x : Sigma (fun _ : String => StockStatus)) (t : Int) : Int :=
  addInt t (f x.2)

instance (f : StockStatus → Int) : LeftCommutative (sumStep f) :=
  ⟨fun a b t => by unfold sumStep addInt wrapInt; omega⟩

/-- The sum of one field over all entries of a status map, as a Go loop over
the map computes it. Go does not fix the order in which a map is visited; `int`
addition is commutative and associative, so that the result does not depend
on it. -/
def sumOver (f : StockStatus → Int) (stockMap : StockStatusMap) : Int :=
  Multiset.foldr (sumStep f) 0 stockMap.entries

/-- The results `rs` merged one after the other by the body of the
`statusChan` case, from the empty map and the zero totals. -/
def mergeAll (rs : List (String × StockStatus)) : StockStatusMap × StockStatus :=
  rs.foldl (fun acc r => mergeStatus acc.1 acc.2 r.1 r.2) (∅, StockStatus.empty)

/-- What the handler passes on to `renderer.HTML` at lines 123-127 (the `user`
entry apart): the status map and the totals, once the loop is left. -/
def rendered (trace : List Event) : Option (StockStatusMap × StockStatus) :=
  match (waitLoop trace).phase with
  | .done => some ((waitLoop trace).stockMap, (waitLoop trace).sum)
  | _ => none

/-- The mathematical (unbounded) sum of one field over all entries of a status
map. -/
def exactSum (f : StockStatus → Int) (stockMap : StockStatusMap) : Int :=
  (stockMap.entries.map (fun x => f x.2)).sum

/-- The relation `Income = Earned + Remain - Spent`, in Go `int` arithmetic. -/
def Linear (s : StockStatus) : Prop :=
  s.Income = subInt (addInt s.Earned s.Remain) s.Spent

instance (s : StockStatus) : Decidable (Linear s) := by unfold Linear; infer_instance

/-- Position A of the concrete scenario; its own `Yield` is not fixed. -/
def statusA (y : Float32) : StockStatus :=
  { Spent := 100, Earned := 0, Remain := 150, Income := 50, Yield := y }

/-- Position B of the concrete scenario; its own `Yield` is not fixed. -/
def statusB (y : Float32) : StockStatus :=
  { Spent := 50, Earned := 20, Remain := 10, Income := -20, Yield := y }

/-- The status map with exactly the two entries of the concrete scenario. -/
def scenarioMap (yA yB : Float32) : StockStatusMap :=
  Finmap.insert "A" (statusA yA) (Finmap.insert "B" (statusB yB) ∅)

/-- Operands `n / d * 2^e` that `k` halvings or doublings normalise. -/
def Within (k n d : Nat) (e : Int) : Prop :=
  n < 2 ^ (24 + k) * d ∧ -149 ≤ e + k ∧ (2 ^ 23 * d ≤ n * 2 ^ k ∨ e ≤ -149 + k)

/-- The operands for which the 512 iterations of `f32Scale` in `f32Round` are
more than enough: 200 halvings or doublings normalise them. -/
def F32Operand (n d : Nat) (e : Int) : Prop := Within 200 n d e

/-- A significand and an exponent in normal form: 24 bits, the exponent in
range, and the leading bit set unless the exponent is the smallest one. -/
def F32Normal (m : Nat) (e : Int) : Prop :=
  m < 2 ^ 24 ∧ -149 ≤ e ∧ e ≤ 104 ∧ (2 ^ 23 ≤ m ∨ e = -149)

/-! ## The goroutines of `renderMainView`, lines 89-121 -/

/-- Where a valuation task is. -/
inductive TaskPc where
  | sending
  | sent
  | finished
  deriving DecidableEq

/-- Modelled from the spec: `CalculateIncome` is not in `src/main.go`. The
spec describes the task it runs: launched with one position and its code, it
emits exactly one result, the code it was given with the status it computed,
onto the status queue, and then completes, which decrements the completion
counter. A task is `sending` until its send on the unbuffered `statusChan` has
met the receive of the handler, `sent` until it has called `wg.Done()`, and
`finished` after that. -/
structure Task where
  code : String
  status : StockStatus
  pc : TaskPc
  deriving DecidableEq

/-- The value a task sends on `statusChan`. -/
def Task.ret (t : Task) : statusReturn := { code := t.code, status := some t.status }

/-- The goroutines and what they share. `wg` is the counter of the
`sync.WaitGroup`, `doneClosed` tells whether `doneChan` is closed, `recvd` is
the value of `ret` while the handler is inside the body of the `statusChan`
case, `loop` holds the variables of the handler, and `hist` records, for the
proofs only, the values the handler has merged so far. -/
structure Sys where
  tasks : List Task
  wg : Int
  doneClosed : Bool
  recvd : Option statusReturn
  loop : LoopState
  hist : List statusReturn

/-- Lines 89-104, the state right before `WAITLOOP`: for every entry of
`user.Stocks`, in the order in which `range` visits them, `wg.Add(1)` and one
task; `valuate code stock` is the status `CalculateIncome` will compute for it.
The `go` statement evaluates `stock` and `code` when it is executed, so that
every task works on the entry of its own iteration. The goroutine of lines
101-104 is waiting in `wg.Wait()`. -/
def Sys.init {Stock : Type} (valuate : String → Stock → StockStatus)
    (stocks : List (String × Stock)) : Sys :=
  stocks.foldl
    (fun s p => { s with
      wg := s.wg + 1
      tasks := s.tasks ++ [{ code := p.1, status := valuate p.1 p.2, pc := .sending }] })
    { tasks := [], wg := 0, doneClosed := false, recvd := none, loop := LoopState.init,
      hist := [] }

/-- The atomic actions of the goroutines. -/
inductive Action where
  | send (i : Nat)
  | merge
  | wgDone (i : Nat)
  | closeDone
  | recvDone
  deriving DecidableEq

/-- One action, when it is enabled.
* `send i`: the send of task `i` meets the receive of line 109; `statusChan` is
  unbuffered, so this needs the handler at the `select`.
* `merge`: the handler runs lines 110-115 on the value received.
* `wgDone i`: task `i`, past its send, calls `wg.Done()`.
* `closeDone`: `wg.Wait()` returns, the counter being zero, and line 103 closes
  `doneChan`.
* `recvDone`: the `select` takes `case <-doneChan`, line 117 leaves the loop
  and line 121 computes the yield. -/
def Sys.step (s : Sys) : Action → Option Sys
  | .send i =>
    match s.tasks[i]? with
    | some t =>
      if t.pc = .sending ∧ s.loop.phase = .collecting ∧ s.recvd = none then
        some { s with tasks := s.tasks.set i { t with pc := .sent }, recvd := some t.ret }
      else none
    | none => none
  | .merge =>
    match s.recvd with
    | some ret =>
      some { s with recvd := none, loop := waitLoopStep s.loop (.statusChan ret),
                    hist := s.hist ++ [ret] }
    | none => none
  | .wgDone i =>
    match s.tasks[i]? with
    | some t =>
      if t.pc = .sent then
        some { s with tasks := s.tasks.set i { t with pc := .finished }, wg := s.wg - 1 }
      else none
    | none => none
  | .closeDone =>
    if s.wg = 0 ∧ s.doneClosed = false then some { s with doneClosed := true } else none
  | .recvDone =>
    if s.loop.phase = .collecting ∧ s.recvd = none ∧ s.doneClosed = true then
      some { s with loop := waitLoopStep s.loop .doneChan }
    else none

/-- A schedule run from a state: `none` when one of its actions is not
enabled where it stands. -/
def Sys.exec (s : Sys) : List Action → Option Sys
  | [] => some s
  | a :: rest => (s.step a).bind (fun s2 => s2.exec rest)

/-- The number of tasks at a given place. -/
def numPc (pc : TaskPc) (tasks : List Task) : Nat := tasks.countP (fun t => t.pc = pc)

/-- The results of the tasks whose send has taken place. -/
def delivered (tasks : List Task) : List statusReturn :=
  (tasks.filter (fun t => t.pc ≠ .sending)).map Task.ret

/-- A bound on the number of actions still to come. -/
def Sys.measure (s : Sys) : Nat :=
  3 * numPc .sending s.tasks + numPc .sent s.tasks + (if s.recvd.isSome then 1 else 0) +
    (if s.doneClosed then 0 else 1) + (if s.loop.phase = .collecting then 1 else 0)

/-- The pair a task was launched for: its code and the status it computes. -/
def Task.data (t : Task) : String × StockStatus := (t.code, t.status)

/-- The value sent for a result `(code, status)`. -/
def toRet (r : String × StockStatus) : statusReturn := { code := r.1, status := some r.2 }

/-- The result a sent value carries, the zero status for a nil pointer. -/
def ofRet (r : statusReturn) : String × StockStatus := (r.code, r.status.getD StockStatus.empty)

/-- The results the tasks of `user.Stocks` deliver, in the order of launch. -/
def resultsOf {Stock : Type} (valuate : String → Stock → StockStatus)
    (stocks : List (String × Stock)) : List (String × StockStatus) :=
  stocks.map (fun p => (p.1, valuate p.1 p.2))

/-- The invariant of the goroutines: the tasks are the ones launched; the
counter of the wait group counts the tasks that have not called `wg.Done()`;
`doneChan` is closed only when every task has; what the handler has merged or
holds in `ret` is what the tasks past their send have sent; and the variables
of the handler are the merge loop run on what it has received. -/
structure Inv (all : List (String × StockStatus)) (s : Sys) : Prop where
  data : s.tasks.map Task.data = all
  wg_eq : s.wg = numPc .sending s.tasks + numPc .sent s.tasks
  closed : s.doneClosed = true → numPc .sending s.tasks = 0 ∧ numPc .sent s.tasks = 0
  hist : (s.hist ++ s.recvd.toList).Perm (delivered s.tasks)
  loop : (s.loop.phase = .collecting ∧ s.loop = waitLoop (s.hist.map Event.statusChan)) ∨
    (s.loop.phase = .done ∧ s.recvd = none ∧ s.doneClosed = true ∧
      s.loop = waitLoop (s.hist.map Event.statusChan ++ [Event.doneChan]))

/-- Three positions, for the concrete runs. -/
def stocks3 : List (String × Nat) := [("A", 1), ("B", 2), ("C", 3)]

/-- A valuation for the concrete runs: a position of `n` shares. -/
def valuate3 (_ : String) (n : Nat) : StockStatus :=
  { Spent := 10 * n, Earned := 0, Remain := 12 * n, Income := 2 * n, Yield := Float32.zero }

/-- A complete schedule of the three tasks, their results arriving in the
order B, A, C. -/
def sched3 : List Action :=
  [.send 1, .merge, .send 0, .wgDone 1, .merge, .wgDone 0, .send 2, .merge, .wgDone 2,
    .closeDone, .recvDone]

/-! ## Go `int` arithmetic -/

theorem wrapInt_add_left (a b : Int) : wrapInt (wrapInt a + b) = wrapInt (a + b) := by
  unfold wrapInt; omega

theorem wrapInt_add_right (a b : Int) : wrapInt (a + wrapInt b) = wrapInt (a + b) := by
  unfold wrapInt; omega

theorem wrapInt_sub_left (a b : Int) : wrapInt (wrapInt a - b) = wrapInt (a - b) := by
  unfold wrapInt; omega

theorem wrapInt_sub_right (a b : Int) : wrapInt (a - wrapInt b) = wrapInt (a - b) := by
  unfold wrapInt; omega

theorem wrapInt_of_isInt64 {x : Int} (h : IsInt64 x) : wrapInt x = x := by
  unfold IsInt64 at h; unfold wrapInt; omega

theorem isInt64_wrapInt (x : Int) : IsInt64 (wrapInt x) := by
  unfold IsInt64 wrapInt; omega

theorem wrapInt_zero : wrapInt 0 = 0 := by decide

/-- A left fold of Go additions is the wrapped mathematical sum. -/
theorem foldl_addInt {α : Type} (g : α → Int) (l : List α) (t : Int) :
    l.foldl (fun acc x => addInt acc (g x)) (wrapInt t) = wrapInt (t + (l.map g).sum) := by
  induction l generalizing t with
  | nil => simp
  | cons x l ih =>
    simp only [List.foldl_cons, List.map_cons, List.sum_cons]
    have h1 : addInt (wrapInt t) (g x) = wrapInt (t + g x) := wrapInt_add_left t (g x)
    rw [h1, ih, add_assoc]

/-- A right fold of Go additions is the wrapped mathematical sum. -/
theorem foldr_sumStep (f : StockStatus → Int) (l : List (Sigma (fun _ : String => StockStatus))) :
    l.foldr (sumStep f) 0 = wrapInt ((l.map (fun x => f x.2)).sum) := by
  induction l with
  | nil => simp [wrapInt_zero]
  | cons x l ih =>
    simp only [List.foldr_cons, List.map_cons, List.sum_cons]
    rw [ih]
    show wrapInt (wrapInt _ + f x.2) = _
    rw [wrapInt_add_left, add_comm]

/-! ## The merge loop on results -/

theorem waitLoopStep_result (st : LoopState) (h : st.phase = .collecting)
    (r : String × StockStatus) :
    waitLoopStep st (result r) =
      { phase := .collecting
        stockMap := (mergeStatus st.stockMap st.sum r.1 r.2).1
        sum := (mergeStatus st.stockMap st.sum r.1 r.2).2 } := by
  cases st with
  | mk ph m sm =>
    simp only at h
    subst h
    rfl

theorem waitLoopStep_doneChan (st : LoopState) (h : st.phase = .collecting) :
    waitLoopStep st .doneChan =
      { phase := .done, stockMap := st.stockMap, sum := computeYield st.sum } := by
  cases st with
  | mk ph m sm =>
    simp only at h
    subst h
    rfl

theorem waitLoopStep_of_done (st : LoopState) (h : st.phase = .done) (ev : Event) :
    waitLoopStep st ev = st := by
  cases st with
  | mk ph m sm =>
    simp only at h
    subst h
    rfl

theorem waitLoopFrom_of_done (st : LoopState) (h : st.phase = .done) (trace : List Event) :
    waitLoopFrom st trace = st := by
  induction trace with
  | nil => rfl
  | cons ev tr ih =>
    unfold waitLoopFrom at ih ⊢
    rw [List.foldl_cons, waitLoopStep_of_done st h, ih]

theorem waitLoopFrom_append (st : LoopState) (t1 t2 : List Event) :
    waitLoopFrom st (t1 ++ t2) = waitLoopFrom (waitLoopFrom st t1) t2 := by
  unfold waitLoopFrom; rw [List.foldl_append]

/-- From a collecting state, a trace of results leaves the loop collecting, with
the results merged one after the other. -/
theorem waitLoopFrom_results (rs : List (String × StockStatus)) (m : StockStatusMap)
    (sm : StockStatus) :
    waitLoopFrom { phase := .collecting, stockMap := m, sum := sm } (rs.map result) =
      { phase := .collecting
        stockMap := (rs.foldl (fun acc r => mergeStatus acc.1 acc.2 r.1 r.2) (m, sm)).1
        sum := (rs.foldl (fun acc r => mergeStatus acc.1 acc.2 r.1 r.2) (m, sm)).2 } := by
  induction rs generalizing m sm with
  | nil => rfl
  | cons r rs ih =>
    unfold waitLoopFrom at ih ⊢
    rw [List.map_cons, List.foldl_cons, waitLoopStep_result _ rfl, List.foldl_cons]
    exact ih _ _

theorem waitLoop_results (rs : List (String × StockStatus)) :
    waitLoop (rs.map result) =
      { phase := .collecting, stockMap := (mergeAll rs).1, sum := (mergeAll rs).2 } := by
  unfold waitLoop LoopState.init mergeAll
  exact waitLoopFrom_results rs ∅ StockStatus.empty

theorem waitLoop_results_doneChan (rs : List (String × StockStatus)) (post : List Event) :
    waitLoop (rs.map result ++ Event.doneChan :: post) =
      { phase := .done, stockMap := (mergeAll rs).1, sum := computeYield (mergeAll rs).2 } := by
  have h := waitLoop_results rs
  unfold waitLoop at h ⊢
  rw [waitLoopFrom_append, h]
  show waitLoopFrom (waitLoopStep _ Event.doneChan) post = _
  rw [waitLoopStep_doneChan _ rfl, waitLoopFrom_of_done _ rfl]

/-! ## Totals and map of `mergeAll` -/

theorem foldl_mergeStatus_fst (rs : List (String × StockStatus)) (m : StockStatusMap)
    (sm : StockStatus) :
    (rs.foldl (fun acc r => mergeStatus acc.1 acc.2 r.1 r.2) (m, sm)).1 =
      rs.foldl (fun acc r => Finmap.insert r.1 r.2 acc) m := by
  induction rs generalizing m sm with
  | nil => rfl
  | cons r rs ih => simp only [List.foldl_cons]; exact ih _ _

theorem foldl_mergeStatus_snd (rs : List (String × StockStatus)) (m : StockStatusMap)
    (sm : StockStatus) :
    (rs.foldl (fun acc r => mergeStatus acc.1 acc.2 r.1 r.2) (m, sm)).2 =
      { Spent := rs.foldl (fun t r => addInt t r.2.Spent) sm.Spent
        Earned := rs.foldl (fun t r => addInt t r.2.Earned) sm.Earned
        Remain := rs.foldl (fun t r => addInt t r.2.Remain) sm.Remain
        Income := rs.foldl (fun t r => addInt t r.2.Income) sm.Income
        Yield := sm.Yield } := by
  induction rs generalizing m sm with
  | nil => rfl
  | cons r rs ih => simp only [List.foldl_cons]; exact ih _ _

theorem mergeAll_snd (rs : List (String × StockStatus)) :
    (mergeAll rs).2 =
      { Spent := wrapInt ((rs.map (fun r => r.2.Spent)).sum)
        Earned := wrapInt ((rs.map (fun r => r.2.Earned)).sum)
        Remain := wrapInt ((rs.map (fun r => r.2.Remain)).sum)
        Income := wrapInt ((rs.map (fun r => r.2.Income)).sum)
        Yield := Float32.zero } := by
  unfold mergeAll
  rw [foldl_mergeStatus_snd]
  have h (g : String × StockStatus → Int) :
      rs.foldl (fun t r => addInt t (g r)) 0 = wrapInt ((rs.map g).sum) := by
    have := foldl_addInt g rs 0
    rwa [wrapInt_zero, zero_add] at this
  simp only [StockStatus.empty]
  rw [h (fun r => r.2.Spent), h (fun r => r.2.Earned), h (fun r => r.2.Remain),
    h (fun r => r.2.Income)]

/-- With pairwise distinct codes nothing is overwritten: the entries of the
map are the results, each once. -/
theorem foldl_insert_entries (rs : List (String × StockStatus)) (m : StockStatusMap)
    (hnd : (rs.map Prod.fst).Nodup) (hm : ∀ r ∈ rs, r.1 ∉ m) :
    (rs.foldl (fun acc r => Finmap.insert r.1 r.2 acc) m).entries =
      m.entries + ((rs.map (fun r => (⟨r.1, r.2⟩ : Sigma (fun _ : String => StockStatus))) :
        List _) : Multiset _) := by
  induction rs generalizing m with
  | nil => simp
  | cons r rs ih =>
    rw [List.map_cons, List.nodup_cons] at hnd
    rw [List.foldl_cons, ih _ hnd.2, Finmap.insert_entries_of_neg (hm r (List.mem_cons_self _ _))]
    · rw [List.map_cons, ← Multiset.cons_coe, Multiset.add_cons, Multiset.cons_add]
    · intro r2 hr2
      rw [Finmap.mem_insert, not_or]
      refine ⟨?_, hm r2 (List.mem_cons_of_mem _ hr2)⟩
      intro heq
      exact hnd.1 (heq ▸ List.mem_map_of_mem Prod.fst hr2)

theorem mergeAll_entries (rs : List (String × StockStatus)) (hnd : (rs.map Prod.fst).Nodup) :
    (mergeAll rs).1.entries =
      ((rs.map (fun r => (⟨r.1, r.2⟩ : Sigma (fun _ : String => StockStatus))) : List _) :
        Multiset _) := by
  unfold mergeAll
  rw [foldl_mergeStatus_fst, foldl_insert_entries rs ∅ hnd (fun _ _ => Finmap.not_mem_empty)]
  exact zero_add _

theorem sumOver_mergeAll (f : StockStatus → Int) (rs : List (String × StockStatus))
    (hnd : (rs.map Prod.fst).Nodup) :
    sumOver f (mergeAll rs).1 = wrapInt ((rs.map (fun r => f r.2)).sum) := by
  unfold sumOver
  rw [mergeAll_entries rs hnd, Multiset.coe_foldr, foldr_sumStep, List.map_map]
  rfl

theorem sumOver_eq_wrapInt_exactSum (f : StockStatus → Int) (m : StockStatusMap) :
    sumOver f m = wrapInt (exactSum f m) := by
  unfold sumOver exactSum
  induction m.entries using Multiset.induction_on with
  | empty => simp [wrapInt_zero]
  | cons x s ih =>
    rw [Multiset.foldr_cons, Multiset.map_cons, Multiset.sum_cons, ih]
    show wrapInt (wrapInt _ + f x.2) = _
    rw [wrapInt_add_left, add_comm]

theorem keys_insert (k : String) (s : StockStatus) (m : StockStatusMap) :
    (Finmap.insert k s m).keys = insert k m.keys := by
  ext a
  simp only [Finmap.mem_keys, Finmap.mem_insert, Finset.mem_insert]

theorem foldl_insert_keys (rs : List (String × StockStatus)) (m : StockStatusMap) :
    (rs.foldl (fun acc r => Finmap.insert r.1 r.2 acc) m).keys =
      m.keys ∪ (rs.map Prod.fst).toFinset := by
  induction rs generalizing m with
  | nil => simp
  | cons r rs ih =>
    rw [List.foldl_cons, ih, keys_insert, List.map_cons, List.toFinset_cons]
    ext a
    simp only [Finset.mem_union, Finset.mem_insert]
    tauto

theorem mergeAll_keys (rs : List (String × StockStatus)) :
    (mergeAll rs).1.keys = (rs.map Prod.fst).toFinset := by
  unfold mergeAll
  rw [foldl_mergeStatus_fst, foldl_insert_keys, Finmap.keys_empty, Finset.empty_union]

theorem mergeAll_perm_snd {l1 l2 : List (String × StockStatus)} (hp : l1.Perm l2) :
    (mergeAll l1).2 = (mergeAll l2).2 := by
  rw [mergeAll_snd, mergeAll_snd, (hp.map _).sum_eq, (hp.map _).sum_eq, (hp.map _).sum_eq,
    (hp.map _).sum_eq]

theorem mergeAll_perm_fst {l1 l2 : List (String × StockStatus)} (hp : l1.Perm l2)
    (hnd : (l1.map Prod.fst).Nodup) : (mergeAll l1).1 = (mergeAll l2).1 := by
  apply Finmap.ext
  rw [mergeAll_entries l1 hnd, mergeAll_entries l2 ((hp.map _).nodup_iff.mp hnd)]
  exact Multiset.coe_eq_coe.mpr (hp.map _)

theorem rendered_results_doneChan (rs : List (String × StockStatus)) (post : List Event) :
    rendered (rs.map result ++ Event.doneChan :: post) =
      some ((mergeAll rs).1, computeYield (mergeAll rs).2) := by
  unfold rendered
  rw [waitLoop_results_doneChan]

/-! ## `float32` facts used by the yield -/

theorem f32Scale_le (fuel n d : Nat) (e : Int) (hd : 0 < d) (hn : d ≤ n) (he : -149 ≤ e) :
    0 < (f32Scale fuel n d e).2.1 ∧ (f32Scale fuel n d e).2.1 ≤ (f32Scale fuel n d e).1 := by
  induction fuel generalizing n d e with
  | zero => exact ⟨hd, hn⟩
  | succ fuel ih =>
    unfold f32Scale
    split_ifs with h1 h2
    · exact ih n (2 * d) (e + 1) (by omega) (by omega) (by omega)
    · exact ih (2 * n) d (e - 1) hd (by omega) (by omega)
    · exact ⟨hd, hn⟩

theorem roundHalfEven_ge (n d : Nat) : n / d ≤ roundHalfEven n d := by
  unfold roundHalfEven
  split_ifs <;> omega

theorem roundHalfEven_le (n d : Nat) : roundHalfEven n d ≤ n / d + 1 := by
  unfold roundHalfEven
  split_ifs <;> omega

/-- Rounding a quantity that is at least one never gives a zero or a NaN. -/
theorem f32Round_of_le (neg : Bool) (n d : Nat) (e : Int) (hd : 0 < d) (hn : d ≤ n)
    (he : -149 ≤ e) :
    f32Round neg n d e = .inf neg ∨
      ∃ m e2, m ≠ 0 ∧ f32Round neg n d e = .fin neg m e2 := by
  have h := f32Scale_le 512 n d e hd hn he
  unfold f32Round
  rw [if_neg (by omega)]
  generalize f32Scale 512 n d e = r at h
  obtain ⟨n1, d1, e1⟩ := r
  simp only at h ⊢
  have hq : 1 ≤ n1 / d1 := (Nat.one_le_div_iff h.1).mpr h.2
  have hq1 := roundHalfEven_ge n1 d1
  split_ifs
  · exact Or.inl rfl
  · exact Or.inr ⟨_, _, by positivity, rfl⟩
  · exact Or.inl rfl
  · exact Or.inr ⟨_, _, by omega, rfl⟩

theorem f32OfInt_zero : f32OfInt 0 = .fin false 0 (-149) := by decide

theorem f32OfInt_of_ne_zero (i : Int) (hi : i ≠ 0) :
    f32OfInt i = .inf (decide (i < 0)) ∨
      ∃ m e, m ≠ 0 ∧ f32OfInt i = .fin (decide (i < 0)) m e := by
  unfold f32OfInt
  exact f32Round_of_le _ _ 1 0 Nat.one_pos (by omega) (by omega)

/-- The yield of line 121 when the total `Spent` is zero. -/
theorem computeYield_spent_zero (sm : StockStatus) (h : sm.Spent = 0) :
    (computeYield sm).Yield =
      if sm.Income = 0 then Float32.nan else Float32.inf (decide (sm.Income < 0)) := by
  unfold computeYield
  simp only [h, f32OfInt_zero]
  have h100 : f32OfInt 100 = .fin false 13107200 (-17) := by decide
  rw [h100]
  by_cases hi : sm.Income = 0
  · rw [if_pos hi, hi, f32OfInt_zero]; rfl
  · rw [if_neg hi]
    rcases f32OfInt_of_ne_zero _ hi with h1 | ⟨m, e, hm, h1⟩
    · rw [h1]; simp [f32Div, f32Mul]
    · rw [h1]; simp [f32Div, f32Mul, hm]

/-- A trace all of whose results carry a status is a list of results, possibly
followed by a completion event and more events. -/
theorem trace_shape (trace : List Event) (hwf : ∀ ev ∈ trace, ev.hasStatus = true) :
    ∃ pre : List (String × StockStatus),
      trace = pre.map result ∨ ∃ post, trace = pre.map result ++ Event.doneChan :: post := by
  induction trace with
  | nil => exact ⟨[], Or.inl rfl⟩
  | cons ev tr ih =>
    cases ev with
    | doneChan => exact ⟨[], Or.inr ⟨tr, rfl⟩⟩
    | statusChan ret =>
      obtain ⟨pre, h⟩ := ih (fun r hr => hwf r (List.mem_cons_of_mem _ hr))
      obtain ⟨code, status⟩ := ret
      cases status with
      | none => exact absurd (hwf _ (List.mem_cons_self _ _)) (by simp [Event.hasStatus])
      | some st =>
        refine ⟨(code, st) :: pre, ?_⟩
        rcases h with h | ⟨post, h⟩
        · exact Or.inl (by rw [h]; rfl)
        · exact Or.inr ⟨post, by rw [h]; rfl⟩

/-! ## `float32` rounding is rounding to nearest, ties to even -/

theorem f32Scale_value (fuel n d : Nat) (e : Int) (hd : 0 < d) :
    0 < (f32Scale fuel n d e).2.1 ∧
    ((f32Scale fuel n d e).1 : ℚ) / ((f32Scale fuel n d e).2.1 : ℚ) *
        (2 : ℚ) ^ (f32Scale fuel n d e).2.2 = (n : ℚ) / (d : ℚ) * (2 : ℚ) ^ e := by
  induction fuel generalizing n d e with
  | zero => exact ⟨hd, rfl⟩
  | succ fuel ih =>
    unfold f32Scale
    have hd0 : (d : ℚ) ≠ 0 := by exact_mod_cast hd.ne'
    split_ifs with h1 h2
    · obtain ⟨i1, i2⟩ := ih n (2 * d) (e + 1) (by omega)
      refine ⟨i1, ?_⟩
      rw [i2, zpow_add_one₀ (by norm_num : (2 : ℚ) ≠ 0)]
      push_cast
      field_simp
      ring
    · obtain ⟨i1, i2⟩ := ih (2 * n) d (e - 1) hd
      refine ⟨i1, ?_⟩
      rw [i2, zpow_sub_one₀ (by norm_num : (2 : ℚ) ≠ 0)]
      push_cast
      field_simp
      ring
    · exact ⟨hd, rfl⟩

theorem within_step_down (k n d : Nat) (e : Int) (h : Within (k + 1) n d e)
    (c : 2 ^ 24 * d ≤ n ∨ e < -149) : Within k n (2 * d) (e + 1) := by
  obtain ⟨h1, h2, h3⟩ := h
  have e1 : 2 ^ (24 + (k + 1)) * d = 2 ^ (24 + k) * (2 * d) := by ring
  push_cast at h2 h3
  refine ⟨by rw [← e1]; exact h1, by omega, ?_⟩
  rcases c with c | c
  · left
    calc 2 ^ 23 * (2 * d) = 2 ^ 24 * d := by ring
      _ ≤ n := c
      _ ≤ n * 2 ^ k := Nat.le_mul_of_pos_right _ (Nat.one_le_two_pow)
  · right; omega

theorem within_step_up (k n d : Nat) (e : Int) (h : Within (k + 1) n d e)
    (c : n < 2 ^ 23 * d ∧ -149 < e) : Within k (2 * n) d (e - 1) := by
  obtain ⟨_, h2, h3⟩ := h
  have e2 : n * 2 ^ (k + 1) = 2 * n * 2 ^ k := by ring
  have hp2 : (2 : Nat) ^ 24 ≤ 2 ^ (24 + k) := Nat.pow_le_pow_right (by norm_num) (by omega)
  push_cast at h2 h3
  refine ⟨?_, by omega, ?_⟩
  · calc 2 * n < 2 ^ 24 * d := by omega
      _ ≤ 2 ^ (24 + k) * d := Nat.mul_le_mul_right _ hp2
  · rcases h3 with h | h
    · left; rw [← e2]; exact h
    · right; omega

theorem within_zero (n d : Nat) (e : Int) (h : Within 0 n d e) :
    n < 2 ^ 24 * d ∧ -149 ≤ e ∧ (2 ^ 23 * d ≤ n ∨ e = -149) := by
  obtain ⟨h1, h2, h3⟩ := h
  simp only [Nat.add_zero, pow_zero, Nat.mul_one, Nat.cast_zero, add_zero] at h1 h2 h3
  refine ⟨h1, h2, ?_⟩
  rcases h3 with h | h
  · exact Or.inl h
  · exact Or.inr (by omega)

/-- With enough iterations `f32Scale` ends in normal form. -/
theorem f32Scale_normal (fuel k n d : Nat) (e : Int) (hk : k ≤ fuel) (h : Within k n d e) :
    (f32Scale fuel n d e).1 < 2 ^ 24 * (f32Scale fuel n d e).2.1 ∧
    -149 ≤ (f32Scale fuel n d e).2.2 ∧
    (2 ^ 23 * (f32Scale fuel n d e).2.1 ≤ (f32Scale fuel n d e).1 ∨
      (f32Scale fuel n d e).2.2 = -149) := by
  induction fuel generalizing k n d e with
  | zero =>
    obtain rfl : k = 0 := by omega
    exact within_zero n d e h
  | succ fuel ih =>
    unfold f32Scale
    cases k with
    | zero =>
      have h0 := within_zero n d e h
      rw [if_neg (by omega), if_neg (by omega)]
      exact h0
    | succ k =>
      split_ifs with c1 c2
      · exact ih k n (2 * d) (e + 1) (by omega) (within_step_down k n d e h c1)
      · exact ih k (2 * n) d (e - 1) (by omega) (within_step_up k n d e h c2)
      · show n < 2 ^ 24 * d ∧ -149 ≤ e ∧ (2 ^ 23 * d ≤ n ∨ e = -149)
        refine ⟨by omega, by omega, ?_⟩
        by_cases c3 : n < 2 ^ 23 * d
        · right; omega
        · left; omega

theorem roundHalfEven_spec (n d : Nat) (hd : 0 < d) :
    2 * n ≤ 2 * (roundHalfEven n d * d) + d ∧ 2 * (roundHalfEven n d * d) ≤ 2 * n + d ∧
    ((2 * n = 2 * (roundHalfEven n d * d) + d ∨ 2 * (roundHalfEven n d * d) = 2 * n + d) →
      roundHalfEven n d % 2 = 0) := by
  have hdm := Nat.div_add_mod n d
  have hr := Nat.mod_lt n hd
  have hmul : (n / d + 1) * d = n / d * d + d := by ring
  have hcomm : d * (n / d) = n / d * d := Nat.mul_comm _ _
  unfold roundHalfEven
  split_ifs with c1 c2 c3
  · refine ⟨by omega, by omega, fun h => ?_⟩
    omega
  · rw [hmul]
    refine ⟨by omega, by omega, fun h => ?_⟩
    omega
  · exact ⟨by omega, by omega, fun _ => c3⟩
  · rw [hmul]
    refine ⟨by omega, by omega, fun _ => by omega⟩

/-- The integer `q` with `q - 1/2 ≤ t ≤ q + 1/2` is at least as near to `t` as
any other integer. -/
theorem abs_sub_le_of_nearest (t : ℚ) (q j : Nat) (h1 : (q : ℚ) - 1 / 2 ≤ t)
    (h2 : t ≤ (q : ℚ) + 1 / 2) : |(q : ℚ) - t| ≤ |(j : ℚ) - t| := by
  rcases lt_trichotomy j q with h | h | h
  · have hj : (j : ℚ) + 1 ≤ q := by exact_mod_cast h
    rw [abs_le]
    constructor
    · have := neg_abs_le ((j : ℚ) - t); linarith
    · have := neg_abs_le ((j : ℚ) - t); linarith
  · rw [h]
  · have hj : (q : ℚ) + 1 ≤ j := by exact_mod_cast h
    rw [abs_le]
    constructor
    · have := le_abs_self ((j : ℚ) - t); linarith
    · have := le_abs_self ((j : ℚ) - t); linarith

theorem roundHalfEven_bounds (n1 d1 : Nat) (hd : 0 < d1) :
    (roundHalfEven n1 d1 : ℚ) - 1 / 2 ≤ (n1 : ℚ) / d1 ∧
      (n1 : ℚ) / d1 ≤ (roundHalfEven n1 d1 : ℚ) + 1 / 2 := by
  obtain ⟨s1, s2, _⟩ := roundHalfEven_spec n1 d1 hd
  have hdQ : (0 : ℚ) < d1 := by exact_mod_cast hd
  constructor
  · rw [le_div_iff₀ hdQ]
    have : (2 : ℚ) * (roundHalfEven n1 d1 * d1) ≤ 2 * n1 + d1 := by exact_mod_cast s2
    linarith
  · rw [div_le_iff₀ hdQ]
    have : (2 : ℚ) * n1 ≤ 2 * (roundHalfEven n1 d1 * d1) + d1 := by exact_mod_cast s1
    linarith

/-- With the exponent normalised, the rounded significand at that exponent is at
least as near to the operand as any value a `float32` can hold. -/
theorem nearest_of_normal (n1 d1 : Nat) (e1 : Int) (hd : 0 < d1)
    (hnorm : 2 ^ 23 * d1 ≤ n1 ∨ e1 = -149)
    (m2 : Nat) (k : Int) (hm2 : m2 < 2 ^ 24) (hk : -149 ≤ k) :
    |(roundHalfEven n1 d1 : ℚ) * 2 ^ e1 - (n1 : ℚ) / d1 * 2 ^ e1| ≤
      |(m2 : ℚ) * 2 ^ k - (n1 : ℚ) / d1 * 2 ^ e1| := by
  obtain ⟨h1, h2⟩ := roundHalfEven_bounds n1 d1 hd
  have hdQ : (0 : ℚ) < d1 := by exact_mod_cast hd
  have hu : (0 : ℚ) < 2 ^ e1 := zpow_pos (by norm_num) _
  have key : ∀ j : Nat, |(roundHalfEven n1 d1 : ℚ) * 2 ^ e1 - (n1 : ℚ) / d1 * 2 ^ e1| ≤
      |(j : ℚ) * 2 ^ e1 - (n1 : ℚ) / d1 * 2 ^ e1| := by
    intro j
    rw [← sub_mul, ← sub_mul, abs_mul, abs_mul, abs_of_pos hu]
    exact mul_le_mul_of_nonneg_right (abs_sub_le_of_nearest _ _ j h1 h2) hu.le
  by_cases hke : e1 ≤ k
  · have hk2 : (2 : ℚ) ^ k = ((2 ^ (k - e1).toNat : Nat) : ℚ) * 2 ^ e1 := by
      have hsplit : k = ((k - e1).toNat : Int) + e1 := by
        rw [Int.toNat_of_nonneg (by omega)]; ring
      conv_lhs => rw [hsplit]
      rw [zpow_add₀ (by norm_num : (2 : ℚ) ≠ 0), zpow_natCast]
      push_cast
      rfl
    have hj := key (m2 * 2 ^ (k - e1).toNat)
    rw [hk2, ← mul_assoc]
    push_cast at hj ⊢
    exact hj
  · have he1 : e1 ≠ -149 := by omega
    have hn : 2 ^ 23 * d1 ≤ n1 := hnorm.resolve_right he1
    have ht23 : (2 : ℚ) ^ 23 ≤ (n1 : ℚ) / d1 := by
      rw [le_div_iff₀ hdQ]
      exact_mod_cast hn
    have hA : (2 : ℚ) ^ 23 * 2 ^ e1 ≤ (n1 : ℚ) / d1 * 2 ^ e1 :=
      mul_le_mul_of_nonneg_right ht23 hu.le
    have hy : (m2 : ℚ) * 2 ^ k ≤ 2 ^ 23 * 2 ^ e1 := by
      have hm : (m2 : ℚ) ≤ 2 ^ 24 := by exact_mod_cast hm2.le
      have hkk : (2 : ℚ) ^ k ≤ 2 ^ (e1 - 1) := zpow_le_zpow_right₀ (by norm_num) (by omega)
      have hpos : (0 : ℚ) ≤ 2 ^ k := (zpow_pos (by norm_num) _).le
      calc (m2 : ℚ) * 2 ^ k ≤ 2 ^ 24 * 2 ^ (e1 - 1) := mul_le_mul hm hkk hpos (by norm_num)
        _ = 2 ^ 23 * 2 ^ e1 := by
          rw [zpow_sub_one₀ (by norm_num : (2 : ℚ) ≠ 0)]; ring
    have k23 := key (2 ^ 23)
    push_cast at k23
    refine k23.trans ?_
    rw [abs_of_nonpos (by linarith), abs_of_nonpos (by linarith)]
    linarith

/-- The function `f32Round` is IEEE-754 rounding to nearest, ties to even. For
a positive operand `x = n / d * 2^e`, the result is the infinity exactly from the overflow
threshold `(2^24 - 1/2) * 2^104` on; below it, the result is a finite
`float32` in normal form that is at least as near to `x` as any value a
`float32` can hold, and its significand is even when `x` is half-way between
it and its neighbour. -/
theorem f32Round_nearest (neg : Bool) (n d : Nat) (e : Int) (hn : 0 < n) (hd : 0 < d)
    (hop : F32Operand n d e) :
    (f32Round neg n d e = .inf neg ∧
      ((2 : ℚ) ^ 24 - 1 / 2) * 2 ^ (104 : Int) ≤ (n : ℚ) / d * 2 ^ e) ∨
    ∃ m e2, f32Round neg n d e = .fin neg m e2 ∧ F32Normal m e2 ∧
      (n : ℚ) / d * 2 ^ e < ((2 : ℚ) ^ 24 - 1 / 2) * 2 ^ (104 : Int) ∧
      (∀ (m2 : Nat) (k : Int), m2 < 2 ^ 24 → -149 ≤ k → k ≤ 104 →
        |(m : ℚ) * 2 ^ e2 - (n : ℚ) / d * 2 ^ e| ≤
          |(m2 : ℚ) * 2 ^ k - (n : ℚ) / d * 2 ^ e|) ∧
      (2 * |(m : ℚ) * 2 ^ e2 - (n : ℚ) / d * 2 ^ e| = 2 ^ e2 → m % 2 = 0) := by
  obtain ⟨hd1, hval⟩ := f32Scale_value 512 n d e hd
  obtain ⟨hn1, he1, hnorm⟩ := f32Scale_normal 512 200 n d e (by norm_num) hop
  unfold f32Round
  rw [if_neg hn.ne']
  generalize f32Scale 512 n d e = r at hd1 hval hn1 he1 hnorm
  obtain ⟨n1, d1, e1⟩ := r
  simp only at hd1 hval hn1 he1 hnorm ⊢
  rw [← hval]
  obtain ⟨b1, b2⟩ := roundHalfEven_bounds n1 d1 hd1
  obtain ⟨s1, s2, s3⟩ := roundHalfEven_spec n1 d1 hd1
  have hdQ : (0 : ℚ) < d1 := by exact_mod_cast hd1
  have hq : n1 / d1 < 2 ^ 24 := Nat.div_lt_of_lt_mul (by rw [Nat.mul_comm]; exact hn1)
  have hq1le := roundHalfEven_le n1 d1
  have hq1ge := roundHalfEven_ge n1 d1
  have hu : (0 : ℚ) < 2 ^ e1 := zpow_pos (by norm_num) _
  have two1 : (1 : ℚ) ≤ 2 := by norm_num
  split_ifs with c1 c2 c3
  · left
    refine ⟨rfl, ?_⟩
    have hpow : (2 : ℚ) ^ (104 : Int) ≤ 2 ^ e1 := zpow_le_zpow_right₀ two1 (by omega)
    have b1q : (2 : ℚ) ^ 24 - 1 / 2 ≤ (n1 : ℚ) / d1 := by
      rw [c1] at b1
      have hc : ((2 ^ 24 : Nat) : ℚ) = (2 : ℚ) ^ 24 := by norm_num
      rw [hc] at b1
      exact b1
    calc ((2 : ℚ) ^ 24 - 1 / 2) * 2 ^ (104 : Int)
        ≤ ((2 : ℚ) ^ 24 - 1 / 2) * 2 ^ e1 := mul_le_mul_of_nonneg_left hpow (by norm_num)
      _ ≤ (n1 : ℚ) / d1 * 2 ^ e1 := mul_le_mul_of_nonneg_right b1q hu.le
  · right
    have hnormal : F32Normal (2 ^ 23) (e1 + 1) := by
      unfold F32Normal
      exact ⟨by norm_num, by omega, by omega, Or.inl le_rfl⟩
    refine ⟨2 ^ 23, e1 + 1, rfl, hnormal, ?_, ?_, ?_⟩
    · have hpow : (2 : ℚ) ^ e1 ≤ 2 ^ (103 : Int) := zpow_le_zpow_right₀ two1 (by omega)
      have b2q : (n1 : ℚ) / d1 ≤ (2 : ℚ) ^ 24 + 1 / 2 := by
        rw [c1] at b2
        have hc : ((2 ^ 24 : Nat) : ℚ) = (2 : ℚ) ^ 24 := by norm_num
        rw [hc] at b2
        exact b2
      calc (n1 : ℚ) / d1 * 2 ^ e1 ≤ ((2 : ℚ) ^ 24 + 1 / 2) * 2 ^ e1 :=
            mul_le_mul_of_nonneg_right b2q hu.le
        _ ≤ ((2 : ℚ) ^ 24 + 1 / 2) * 2 ^ (103 : Int) :=
            mul_le_mul_of_nonneg_left hpow (by norm_num)
        _ < ((2 : ℚ) ^ 24 - 1 / 2) * 2 ^ (104 : Int) := by norm_num
    · intro m2 k hm2 hk _
      have hnear := nearest_of_normal n1 d1 e1 hd1 hnorm m2 k hm2 hk
      rw [c1] at hnear
      have hv : ((2 ^ 23 : Nat) : ℚ) * 2 ^ (e1 + 1) = ((2 ^ 24 : Nat) : ℚ) * 2 ^ e1 := by
        rw [zpow_add_one₀ (by norm_num : (2 : ℚ) ≠ 0)]
        push_cast
        ring
      rw [hv]
      exact hnear
    · intro _
      exact Nat.pow_mod 2 23 2 ▸ rfl
  · left
    refine ⟨rfl, ?_⟩
    have hn23 : 2 ^ 23 * d1 ≤ n1 := hnorm.resolve_right (by omega)
    have ht23 : (2 : ℚ) ^ 23 ≤ (n1 : ℚ) / d1 := by
      rw [le_div_iff₀ hdQ]
      exact_mod_cast hn23
    have hpow : (2 : ℚ) ^ (105 : Int) ≤ 2 ^ e1 := zpow_le_zpow_right₀ two1 (by omega)
    calc ((2 : ℚ) ^ 24 - 1 / 2) * 2 ^ (104 : Int) ≤ (2 : ℚ) ^ 23 * 2 ^ (105 : Int) := by norm_num
      _ ≤ (n1 : ℚ) / d1 * 2 ^ e1 := mul_le_mul ht23 hpow (by positivity) (by linarith)
  · right
    have hlt : roundHalfEven n1 d1 < 2 ^ 24 := by omega
    have hnormal : F32Normal (roundHalfEven n1 d1) e1 := by
      unfold F32Normal
      refine ⟨hlt, he1, by omega, ?_⟩
      rcases hnorm with h | h
      · left
        have : 2 ^ 23 ≤ n1 / d1 := (Nat.le_div_iff_mul_le hd1).mpr h
        omega
      · exact Or.inr h
    refine ⟨roundHalfEven n1 d1, e1, rfl, hnormal, ?_,
      fun m2 k hm2 hk _ => nearest_of_normal n1 d1 e1 hd1 hnorm m2 k hm2 hk, ?_⟩
    · have hint : 2 * n1 < 33554431 * d1 := by
        by_contra hcon
        have hmul : roundHalfEven n1 d1 * d1 ≤ 16777215 * d1 :=
          Nat.mul_le_mul_right _ (by omega)
        have heq : roundHalfEven n1 d1 * d1 = 16777215 * d1 := by omega
        have hq1 : roundHalfEven n1 d1 = 16777215 := Nat.eq_of_mul_eq_mul_right hd1 heq
        have := s3 (Or.inl (by omega))
        omega
      have ht : (n1 : ℚ) / d1 < (2 : ℚ) ^ 24 - 1 / 2 := by
        rw [div_lt_iff₀ hdQ]
        have : (2 : ℚ) * n1 < 33554431 * d1 := by exact_mod_cast hint
        norm_num
        linarith
      have hpow : (2 : ℚ) ^ e1 ≤ 2 ^ (104 : Int) := zpow_le_zpow_right₀ two1 (by omega)
      calc (n1 : ℚ) / d1 * 2 ^ e1 < ((2 : ℚ) ^ 24 - 1 / 2) * 2 ^ e1 :=
            mul_lt_mul_of_pos_right ht hu
        _ ≤ ((2 : ℚ) ^ 24 - 1 / 2) * 2 ^ (104 : Int) :=
            mul_le_mul_of_nonneg_left hpow (by norm_num)
    · intro htie
      apply s3
      rw [← sub_mul, abs_mul, abs_of_pos hu] at htie
      have habs : |(roundHalfEven n1 d1 : ℚ) - (n1 : ℚ) / d1| = 1 / 2 := by
        have h0 : (2 * |(roundHalfEven n1 d1 : ℚ) - (n1 : ℚ) / d1| - 1) * 2 ^ e1 = 0 := by
          linarith
        rcases mul_eq_zero.mp h0 with h | h
        · linarith
        · exact absurd h hu.ne'
      have hcancel : (n1 : ℚ) / d1 * d1 = n1 := div_mul_cancel₀ _ hdQ.ne'
      rcases (abs_eq (by norm_num : (0 : ℚ) ≤ 1 / 2)).mp habs with h | h
      · right
        have : (2 : ℚ) * (roundHalfEven n1 d1 * d1) = 2 * n1 + d1 := by
          have : (roundHalfEven n1 d1 : ℚ) = (n1 : ℚ) / d1 + 1 / 2 := by linarith
          rw [this]
          linear_combination 2 * hcancel
        exact_mod_cast this
      · left
        have : (2 : ℚ) * n1 = 2 * (roundHalfEven n1 d1 * d1) + d1 := by
          have : (roundHalfEven n1 d1 : ℚ) = (n1 : ℚ) / d1 - 1 / 2 := by linarith
          rw [this]
          linear_combination (-2 : ℚ) * hcancel
        exact_mod_cast this

/-! ## The operands of the three operations are within reach of `f32Round` -/

theorem f32Operand_ofInt (i : Int) (hi : IsInt64 i) (h0 : i ≠ 0) : F32Operand i.natAbs 1 0 := by
  unfold IsInt64 at hi
  unfold F32Operand Within
  have h1 : i.natAbs ≤ 2 ^ 63 := by omega
  have h2 : 1 ≤ i.natAbs := by omega
  refine ⟨by omega, by norm_num, Or.inr (by norm_num)⟩

theorem f32Operand_div (m1 m2 : Nat) (e1 e2 : Int) (h1 : 0 < m1) (hm1 : m1 < 2 ^ 24)
    (h2 : 0 < m2) (hm2 : m2 < 2 ^ 24) (he1 : -149 ≤ e1) (he2 : e2 ≤ 104) :
    F32Operand m1 m2 (e1 - e2) := by
  unfold F32Operand Within
  refine ⟨by omega, by omega, Or.inl ?_⟩
  calc 2 ^ 23 * m2 ≤ 2 ^ 23 * 2 ^ 24 := Nat.mul_le_mul_left _ hm2.le
    _ ≤ 1 * 2 ^ 200 := by norm_num
    _ ≤ m1 * 2 ^ 200 := Nat.mul_le_mul_right _ h1

theorem f32Operand_mul (m1 m2 : Nat) (e1 e2 : Int) (h1 : 0 < m1) (hm1 : m1 < 2 ^ 24)
    (h2 : 0 < m2) (hm2 : m2 < 2 ^ 24) (he1 : -149 ≤ e1) (he2 : -149 ≤ e2) :
    F32Operand (m1 * m2) 1 (e1 + e2) := by
  unfold F32Operand Within
  have hprod : m1 * m2 ≤ 2 ^ 24 * 2 ^ 24 := Nat.mul_le_mul hm1.le hm2.le
  have hpos : 1 ≤ m1 * m2 := Nat.mul_pos h1 h2
  refine ⟨by omega, by omega, Or.inl ?_⟩
  calc 2 ^ 23 * 1 ≤ 1 * 2 ^ 200 := by norm_num
    _ ≤ m1 * m2 * 2 ^ 200 := Nat.mul_le_mul_right _ hpos

/-- The conversion of a non-zero Go `int` is finite, in normal form, of the
sign of the integer, and at least as near to it as any other `float32`. -/
theorem f32OfInt_nearest (i : Int) (hi : IsInt64 i) (h0 : i ≠ 0) :
    ∃ m e2, f32OfInt i = .fin (decide (i < 0)) m e2 ∧ F32Normal m e2 ∧
      ∀ (m2 : Nat) (k : Int), m2 < 2 ^ 24 → -149 ≤ k → k ≤ 104 →
        |(m : ℚ) * 2 ^ e2 - (i.natAbs : ℚ)| ≤ |(m2 : ℚ) * 2 ^ k - (i.natAbs : ℚ)| := by
  have hpos : 0 < i.natAbs := by omega
  have hle : i.natAbs ≤ 2 ^ 63 := by unfold IsInt64 at hi; omega
  rcases f32Round_nearest (decide (i < 0)) i.natAbs 1 0 hpos Nat.one_pos
      (f32Operand_ofInt i hi h0) with ⟨_, hbig⟩ | ⟨m, e2, hr, hnormal, _, hnear, _⟩
  · exfalso
    have hq : (i.natAbs : ℚ) ≤ 2 ^ 63 := by exact_mod_cast hle
    simp only [Nat.cast_one, div_one, zpow_zero, mul_one] at hbig
    have hthr : (2 : ℚ) ^ 63 < ((2 : ℚ) ^ 24 - 1 / 2) * 2 ^ (104 : Int) := by norm_num
    linarith
  · refine ⟨m, e2, hr, hnormal, fun m2 k hm2 hk hk2 => ?_⟩
    have := hnear m2 k hm2 hk hk2
    simpa only [Nat.cast_one, div_one, zpow_zero, mul_one] using this

/-- Known values of `float32` arithmetic: `2^24 + 1` is half-way between two
values and converts to the even one; `2^63 - 1` converts to `2^63`; `1 / 3` is
`11184811 * 2^-25`; `30 / 150 * 100` is exactly 20; `1 / 3 * 100` is
`8738134 * 2^-18`. -/
theorem float32_examples :
    f32OfInt 16777217 = .fin false 8388608 1 ∧
    f32OfInt (2 ^ 63 - 1) = .fin false 8388608 40 ∧
    f32OfInt (-3) = .fin true 12582912 (-22) ∧
    f32OfInt 100 = .fin false 13107200 (-17) ∧
    f32Div (f32OfInt 1) (f32OfInt 3) = .fin false 11184811 (-25) ∧
    f32Mul (f32Div (f32OfInt 30) (f32OfInt 150)) (f32OfInt 100) = f32OfInt 20 ∧
    f32Mul (f32Div (f32OfInt 1) (f32OfInt 3)) (f32OfInt 100) = .fin false 8738134 (-18) ∧
    f32Div (f32OfInt 1) (f32OfInt 0) = .inf false ∧
    f32Div (f32OfInt (-1)) (f32OfInt 0) = .inf true ∧
    f32Div (f32OfInt 0) (f32OfInt 0) = .nan := by
  decide

/-! ## The goroutines: list facts -/

theorem numPc_set (q : TaskPc) (l : List Task) (i : Nat) (t t2 : Task) (h : l[i]? = some t) :
    numPc q (l.set i t2) + (if t.pc = q then 1 else 0) =
      numPc q l + (if t2.pc = q then 1 else 0) := by
  induction l generalizing i with
  | nil => simp at h
  | cons a l ih =>
    cases i with
    | zero =>
      simp only [List.getElem?_cons_zero, Option.some.injEq] at h
      subst h
      simp only [numPc, List.set_cons_zero, List.countP_cons, decide_eq_true_eq]
      omega
    | succ j =>
      simp only [List.getElem?_cons_succ] at h
      have := ih j h
      simp only [numPc, List.set_cons_succ, List.countP_cons, decide_eq_true_eq] at this ⊢
      omega

theorem map_data_set (l : List Task) (i : Nat) (t t2 : Task) (h : l[i]? = some t)
    (hd : t2.data = t.data) : (l.set i t2).map Task.data = l.map Task.data := by
  induction l generalizing i with
  | nil => simp at h
  | cons a l ih =>
    cases i with
    | zero =>
      simp only [List.getElem?_cons_zero, Option.some.injEq] at h
      subst h
      simp only [List.set_cons_zero, List.map_cons, hd]
    | succ j =>
      simp only [List.getElem?_cons_succ] at h
      simp only [List.set_cons_succ, List.map_cons, ih j h]

theorem delivered_cons (a : Task) (l : List Task) :
    delivered (a :: l) = if a.pc ≠ .sending then a.ret :: delivered l else delivered l := by
  unfold delivered
  by_cases h : a.pc = .sending
  · simp [List.filter_cons, h]
  · simp [List.filter_cons, h]

theorem delivered_set_send (l : List Task) (i : Nat) (t t2 : Task) (h : l[i]? = some t)
    (h1 : t.pc = .sending) (h2 : t2.pc ≠ .sending) (hr : t2.ret = t.ret) :
    (delivered (l.set i t2)).Perm (t.ret :: delivered l) := by
  induction l generalizing i with
  | nil => simp at h
  | cons a l ih =>
    cases i with
    | zero =>
      simp only [List.getElem?_cons_zero, Option.some.injEq] at h
      subst h
      rw [List.set_cons_zero, delivered_cons, delivered_cons, if_pos h2, hr]
      simp [h1]
    | succ j =>
      simp only [List.getElem?_cons_succ] at h
      rw [List.set_cons_succ, delivered_cons, delivered_cons]
      split_ifs
      · exact ((ih j h).cons _).trans (List.Perm.swap _ _ _)
      · exact ih j h

theorem delivered_set_done (l : List Task) (i : Nat) (t t2 : Task) (h : l[i]? = some t)
    (h1 : t.pc ≠ .sending) (h2 : t2.pc ≠ .sending) (hr : t2.ret = t.ret) :
    delivered (l.set i t2) = delivered l := by
  induction l generalizing i with
  | nil => simp at h
  | cons a l ih =>
    cases i with
    | zero =>
      simp only [List.getElem?_cons_zero, Option.some.injEq] at h
      subst h
      rw [List.set_cons_zero, delivered_cons, delivered_cons, if_pos h2, if_pos h1, hr]
    | succ j =>
      simp only [List.getElem?_cons_succ] at h
      rw [List.set_cons_succ, delivered_cons, delivered_cons, ih j h]

theorem delivered_length_le (l : List Task) : (delivered l).length ≤ l.length := by
  unfold delivered
  rw [List.length_map]
  exact List.length_filter_le _ _

theorem delivered_of_none_sending (l : List Task) (h : numPc .sending l = 0) :
    delivered l = (l.map Task.data).map toRet := by
  induction l with
  | nil => rfl
  | cons a l ih =>
    simp only [numPc, List.countP_cons, decide_eq_true_eq] at h
    have ha : a.pc ≠ .sending := by
      intro hc; rw [if_pos hc] at h; omega
    rw [delivered_cons, if_pos ha, ih (by unfold numPc; omega)]
    rfl

theorem mem_delivered_status {l : List Task} {r : statusReturn} (h : r ∈ delivered l) :
    toRet (ofRet r) = r := by
  unfold delivered at h
  obtain ⟨t, _, rfl⟩ := List.mem_map.mp h
  rfl

theorem exists_index_of_numPc_pos (q : TaskPc) (l : List Task) (h : 0 < numPc q l) :
    ∃ (i : Nat) (t : Task), l[i]? = some t ∧ t.pc = q := by
  unfold numPc at h
  obtain ⟨t, ht, hq⟩ := List.countP_pos_iff.mp h
  obtain ⟨i, hi⟩ := List.getElem?_of_mem ht
  exact ⟨i, t, hi, by simpa using hq⟩

/-! ## The goroutines: the initial state -/

theorem init_foldl {Stock : Type} (valuate : String → Stock → StockStatus)
    (stocks : List (String × Stock)) (b : Sys) :
    stocks.foldl
      (fun s p => { s with
        wg := s.wg + 1
        tasks := s.tasks ++ [{ code := p.1, status := valuate p.1 p.2, pc := .sending }] }) b =
    { b with
      wg := b.wg + stocks.length
      tasks := b.tasks ++
        stocks.map (fun p => { code := p.1, status := valuate p.1 p.2, pc := .sending }) } := by
  induction stocks generalizing b with
  | nil => simp
  | cons p stocks ih =>
    rw [List.foldl_cons, ih]
    simp only [List.length_cons, List.map_cons, List.append_assoc, List.singleton_append,
      Nat.cast_add, Nat.cast_one]
    congr 1
    omega

theorem init_eq {Stock : Type} (valuate : String → Stock → StockStatus)
    (stocks : List (String × Stock)) :
    Sys.init valuate stocks =
      { tasks := stocks.map (fun p => { code := p.1, status := valuate p.1 p.2, pc := .sending })
        wg := stocks.length
        doneClosed := false
        recvd := none
        loop := LoopState.init
        hist := [] } := by
  unfold Sys.init
  rw [init_foldl]
  simp

theorem numPc_launched {Stock : Type} (valuate : String → Stock → StockStatus)
    (stocks : List (String × Stock)) (q : TaskPc) :
    numPc q (stocks.map (fun p => ({ code := p.1, status := valuate p.1 p.2, pc := .sending } : Task))) =
      if q = .sending then stocks.length else 0 := by
  induction stocks with
  | nil => simp [numPc]
  | cons p stocks ih =>
    unfold numPc at ih ⊢
    rw [List.map_cons, List.countP_cons, ih]
    by_cases hq : q = .sending
    · subst hq; simp
    · have hq2 : ¬ TaskPc.sending = q := fun h => hq h.symm
      simp [hq, hq2]

theorem delivered_launched {Stock : Type} (valuate : String → Stock → StockStatus)
    (stocks : List (String × Stock)) :
    delivered (stocks.map
      (fun p => ({ code := p.1, status := valuate p.1 p.2, pc := .sending } : Task))) = [] := by
  induction stocks with
  | nil => rfl
  | cons p stocks ih => rw [List.map_cons, delivered_cons, ih]; simp

theorem inv_init {Stock : Type} (valuate : String → Stock → StockStatus)
    (stocks : List (String × Stock)) :
    Inv (resultsOf valuate stocks) (Sys.init valuate stocks) := by
  rw [init_eq]
  refine ⟨?_, ?_, ?_, ?_, ?_⟩
  · simp only [List.map_map, resultsOf]
    rfl
  · simp only [numPc_launched]
    simp
  · intro h; simp at h
  · simp only [delivered_launched]
    simp
  · exact Or.inl ⟨rfl, rfl⟩

theorem measure_init {Stock : Type} (valuate : String → Stock → StockStatus)
    (stocks : List (String × Stock)) :
    (Sys.init valuate stocks).measure = 3 * stocks.length + 2 := by
  rw [init_eq]
  unfold Sys.measure
  simp only [numPc_launched]
  simp [LoopState.init]

/-! ## The goroutines: every action keeps the invariant -/

theorem waitLoop_snoc (trace : List Event) (ev : Event) :
    waitLoop (trace ++ [ev]) = waitLoopStep (waitLoop trace) ev := by
  unfold waitLoop waitLoopFrom
  rw [List.foldl_append]
  rfl

theorem waitLoopStep_phase_collecting (st : LoopState) (ev : Event)
    (h : (waitLoopStep st ev).phase = .collecting) : st.phase = .collecting := by
  cases st with
  | mk ph m sm =>
    cases ph with
    | collecting => rfl
    | done => exact h
    | panicked => exact h

theorem step_send {s s2 : Sys} {i : Nat} (h : s.step (.send i) = some s2) :
    ∃ t, s.tasks[i]? = some t ∧ t.pc = .sending ∧ s.loop.phase = .collecting ∧
      s.recvd = none ∧
      s2 = { s with tasks := s.tasks.set i { t with pc := .sent }, recvd := some t.ret } := by
  simp only [Sys.step] at h
  cases ht : s.tasks[i]? with
  | none => simp [ht] at h
  | some t =>
    simp only [ht] at h
    split_ifs at h with hc
    exact ⟨t, rfl, hc.1, hc.2.1, hc.2.2, (Option.some.inj h).symm⟩

theorem step_merge {s s2 : Sys} (h : s.step .merge = some s2) :
    ∃ ret, s.recvd = some ret ∧
      s2 = { s with recvd := none, loop := waitLoopStep s.loop (.statusChan ret),
                    hist := s.hist ++ [ret] } := by
  simp only [Sys.step] at h
  cases hr : s.recvd with
  | none => simp [hr] at h
  | some ret =>
    simp only [hr] at h
    exact ⟨ret, rfl, (Option.some.inj h).symm⟩

theorem step_wgDone {s s2 : Sys} {i : Nat} (h : s.step (.wgDone i) = some s2) :
    ∃ t, s.tasks[i]? = some t ∧ t.pc = .sent ∧
      s2 = { s with tasks := s.tasks.set i { t with pc := .finished }, wg := s.wg - 1 } := by
  simp only [Sys.step] at h
  cases ht : s.tasks[i]? with
  | none => simp [ht] at h
  | some t =>
    simp only [ht] at h
    split_ifs at h with hc
    exact ⟨t, rfl, hc, (Option.some.inj h).symm⟩

theorem step_closeDone {s s2 : Sys} (h : s.step .closeDone = some s2) :
    s.wg = 0 ∧ s.doneClosed = false ∧ s2 = { s with doneClosed := true } := by
  simp only [Sys.step] at h
  split_ifs at h with hc
  exact ⟨hc.1, hc.2, (Option.some.inj h).symm⟩

theorem step_recvDone {s s2 : Sys} (h : s.step .recvDone = some s2) :
    s.loop.phase = .collecting ∧ s.recvd = none ∧ s.doneClosed = true ∧
      s2 = { s with loop := waitLoopStep s.loop .doneChan } := by
  simp only [Sys.step] at h
  split_ifs at h with hc
  exact ⟨hc.1, hc.2.1, hc.2.2, (Option.some.inj h).symm⟩

theorem inv_step {all : List (String × StockStatus)} {s s2 : Sys} (a : Action)
    (hI : Inv all s) (h : s.step a = some s2) : Inv all s2 := by
  obtain ⟨hdata, hwg, hclosed, hhist, hloop⟩ := hI
  cases a with
  | send i =>
    obtain ⟨t, ht, hpc, hph, hrecv, rfl⟩ := step_send h
    have n1 := numPc_set .sending s.tasks i t { t with pc := .sent } ht
    have n2 := numPc_set .sent s.tasks i t { t with pc := .sent } ht
    simp only [hpc, if_true, reduceCtorEq, if_false] at n1 n2
    refine ⟨?_, ?_, ?_, ?_, ?_⟩
    · show (s.tasks.set i { t with pc := .sent }).map Task.data = all
      rw [map_data_set s.tasks i t { t with pc := .sent } ht rfl, hdata]
    · show s.wg = ((numPc .sending (s.tasks.set i { t with pc := .sent }) : Nat) : Int) +
        (numPc .sent (s.tasks.set i { t with pc := .sent }) : Nat)
      rw [hwg]; omega
    · intro hc
      have := (hclosed hc).1
      omega
    · show (s.hist ++ [t.ret]).Perm (delivered (s.tasks.set i { t with pc := .sent }))
      rw [hrecv] at hhist
      simp only [Option.toList, List.append_nil] at hhist
      have hp := delivered_set_send s.tasks i t { t with pc := .sent } ht hpc (by simp) rfl
      exact ((List.perm_append_singleton _ _).trans (hhist.cons _)).trans hp.symm
    · rcases hloop with h1 | h2
      · exact Or.inl h1
      · rw [h2.1] at hph; cases hph
  | merge =>
    obtain ⟨ret, hrecv, rfl⟩ := step_merge h
    rw [hrecv] at hhist
    simp only [Option.toList] at hhist
    refine ⟨hdata, hwg, hclosed, ?_, ?_⟩
    · show (s.hist ++ [ret] ++ (none : Option statusReturn).toList).Perm _
      simpa using hhist
    · rcases hloop with h1 | h2
      · left
        have hmem : ret ∈ delivered s.tasks := hhist.subset (by simp)
        have hret := mem_delivered_status hmem
        have hstep : waitLoopStep s.loop (.statusChan ret) =
            waitLoop ((s.hist ++ [ret]).map Event.statusChan) := by
          rw [List.map_append, List.map_singleton, waitLoop_snoc, ← h1.2]
        refine ⟨?_, hstep⟩
        show (waitLoopStep s.loop (.statusChan ret)).phase = .collecting
        rw [← hret]
        show (waitLoopStep s.loop (result (ofRet ret))).phase = .collecting
        rw [waitLoopStep_result _ h1.1]
      · rw [h2.2.1] at hrecv; cases hrecv
  | wgDone i =>
    obtain ⟨t, ht, hpc, rfl⟩ := step_wgDone h
    have n1 := numPc_set .sending s.tasks i t { t with pc := .finished } ht
    have n2 := numPc_set .sent s.tasks i t { t with pc := .finished } ht
    simp only [hpc, if_true, reduceCtorEq, if_false] at n1 n2
    refine ⟨?_, ?_, ?_, ?_, hloop⟩
    · show (s.tasks.set i { t with pc := .finished }).map Task.data = all
      rw [map_data_set s.tasks i t { t with pc := .finished } ht rfl, hdata]
    · show s.wg - 1 = ((numPc .sending (s.tasks.set i { t with pc := .finished }) : Nat) : Int) +
        (numPc .sent (s.tasks.set i { t with pc := .finished }) : Nat)
      rw [hwg]; omega
    · intro hc
      have := (hclosed hc).2
      omega
    · show (s.hist ++ s.recvd.toList).Perm (delivered (s.tasks.set i { t with pc := .finished }))
      rw [delivered_set_done s.tasks i t { t with pc := .finished } ht (by simp [hpc]) (by simp)
        rfl]
      exact hhist
  | closeDone =>
    obtain ⟨hz, hcl, rfl⟩ := step_closeDone h
    refine ⟨hdata, hwg, ?_, hhist, ?_⟩
    · intro _
      rw [hz] at hwg
      show numPc .sending s.tasks = 0 ∧ numPc .sent s.tasks = 0
      constructor <;> omega
    · rcases hloop with h1 | h2
      · exact Or.inl h1
      · rw [h2.2.2.1] at hcl; cases hcl
  | recvDone =>
    obtain ⟨hph, hrecv, hcl, rfl⟩ := step_recvDone h
    refine ⟨hdata, hwg, hclosed, hhist, Or.inr ⟨?_, hrecv, hcl, ?_⟩⟩
    · show (waitLoopStep s.loop .doneChan).phase = .done
      rw [waitLoopStep_doneChan _ hph]
    · rcases hloop with h1 | h2
      · show waitLoopStep s.loop .doneChan = _
        rw [waitLoop_snoc, ← h1.2]
      · rw [h2.1] at hph; cases hph

theorem inv_exec {all : List (String × StockStatus)} (sched : List Action) {s s2 : Sys}
    (hI : Inv all s) (h : s.exec sched = some s2) : Inv all s2 := by
  induction sched generalizing s with
  | nil =>
    simp only [Sys.exec, Option.some.injEq] at h
    exact h ▸ hI
  | cons a rest ih =>
    simp only [Sys.exec] at h
    cases hs : s.step a with
    | none => simp [hs] at h
    | some s1 =>
      rw [hs] at h
      exact ih (inv_step a hI hs) h

/-! ## The goroutines: every action consumes the measure -/

theorem measure_step {s s2 : Sys} (a : Action) (h : s.step a = some s2) :
    s2.measure < s.measure := by
  cases a with
  | send i =>
    obtain ⟨t, ht, hpc, hph, hrecv, rfl⟩ := step_send h
    have n1 := numPc_set .sending s.tasks i t { t with pc := .sent } ht
    have n2 := numPc_set .sent s.tasks i t { t with pc := .sent } ht
    simp only [hpc, if_true, reduceCtorEq, if_false] at n1 n2
    simp only [Sys.measure, hrecv, Option.isSome_none, Option.isSome_some, if_true]
    simp only [Bool.false_eq_true, if_false]
    omega
  | merge =>
    obtain ⟨ret, hrecv, rfl⟩ := step_merge h
    simp only [Sys.measure, hrecv, Option.isSome_none, Option.isSome_some, if_true]
    simp only [Bool.false_eq_true, if_false]
    have hp := waitLoopStep_phase_collecting s.loop (.statusChan ret)
    split_ifs with h1 h2 h3 <;> first | omega | exact absurd (hp ‹_›) ‹_›
  | wgDone i =>
    obtain ⟨t, ht, hpc, rfl⟩ := step_wgDone h
    have n1 := numPc_set .sending s.tasks i t { t with pc := .finished } ht
    have n2 := numPc_set .sent s.tasks i t { t with pc := .finished } ht
    simp only [hpc, if_true, reduceCtorEq, if_false] at n1 n2
    simp only [Sys.measure]
    omega
  | closeDone =>
    obtain ⟨hz, hcl, rfl⟩ := step_closeDone h
    simp only [Sys.measure, hcl, if_true]
    simp only [Bool.false_eq_true, if_false]
    omega
  | recvDone =>
    obtain ⟨hph, hrecv, hcl, rfl⟩ := step_recvDone h
    simp only [Sys.measure, hph, if_true, waitLoopStep_doneChan _ hph]
    simp only [reduceCtorEq, if_false]
    omega

theorem measure_exec (sched : List Action) {s s2 : Sys} (h : s.exec sched = some s2) :
    sched.length + s2.measure ≤ s.measure := by
  induction sched generalizing s with
  | nil =>
    simp only [Sys.exec, Option.some.injEq] at h
    subst h
    simp
  | cons a rest ih =>
    simp only [Sys.exec] at h
    cases hs : s.step a with
    | none => simp [hs] at h
    | some s1 =>
      rw [hs] at h
      have := ih h
      have := measure_step a hs
      simp only [List.length_cons]
      omega

/-! ## The goroutines: progress and the final state -/

theorem progress {all : List (String × StockStatus)} {s : Sys} (hI : Inv all s)
    (hph : s.loop.phase = .collecting) : ∃ a s2, s.step a = some s2 := by
  cases hr : s.recvd with
  | some ret => exact ⟨.merge, _, by simp only [Sys.step, hr]; rfl⟩
  | none =>
    by_cases h1 : 0 < numPc .sending s.tasks
    · obtain ⟨i, t, ht, hpc⟩ := exists_index_of_numPc_pos _ _ h1
      exact ⟨.send i, _, by simp only [Sys.step, ht, hpc, hph, hr, and_self, if_true]; rfl⟩
    · by_cases h2 : 0 < numPc .sent s.tasks
      · obtain ⟨i, t, ht, hpc⟩ := exists_index_of_numPc_pos _ _ h2
        exact ⟨.wgDone i, _, by simp only [Sys.step, ht, hpc, if_true]; rfl⟩
      · have hwg : s.wg = 0 := by
          have := hI.wg_eq
          omega
        cases hc : s.doneClosed with
        | false => exact ⟨.closeDone, _, by simp only [Sys.step, hwg, hc, and_self, if_true]; rfl⟩
        | true => exact ⟨.recvDone, _, by simp only [Sys.step, hph, hr, hc, and_self, if_true]; rfl⟩

theorem phase_of_inv {all : List (String × StockStatus)} {s : Sys} (hI : Inv all s) :
    s.loop.phase = .collecting ∨ s.loop.phase = .done := by
  rcases hI.loop with h | h
  · exact Or.inl h.1
  · exact Or.inr h.1

theorem exists_exec_done {all : List (String × StockStatus)} (n : Nat) (s : Sys)
    (hn : s.measure ≤ n) (hI : Inv all s) :
    ∃ sched s2, s.exec sched = some s2 ∧ s2.loop.phase = .done := by
  induction n generalizing s with
  | zero =>
    rcases phase_of_inv hI with hph | hph
    · simp only [Sys.measure, hph, if_true] at hn
      omega
    · exact ⟨[], s, rfl, hph⟩
  | succ n ih =>
    rcases phase_of_inv hI with hph | hph
    · obtain ⟨a, s1, hs⟩ := progress hI hph
      have hm := measure_step a hs
      obtain ⟨sched, s2, he, hd⟩ := ih s1 (by omega) (inv_step a hI hs)
      exact ⟨a :: sched, s2, by simp only [Sys.exec, hs, Option.some_bind, he], hd⟩
    · exact ⟨[], s, rfl, hph⟩

theorem ofRet_toRet (r : String × StockStatus) : ofRet (toRet r) = r := rfl

theorem map_statusChan_toRet (rs : List (String × StockStatus)) :
    (rs.map toRet).map Event.statusChan = rs.map result := by
  rw [List.map_map]
  rfl

/-- When the loop is left, the values merged are the results of all tasks, in
some order. -/
theorem done_hist {all : List (String × StockStatus)} {s : Sys} (hI : Inv all s)
    (hph : s.loop.phase = .done) :
    ∃ rs : List (String × StockStatus), rs.Perm all ∧ s.hist = rs.map toRet ∧
      s.recvd = none ∧ s.doneClosed = true ∧ s.wg = 0 ∧
      s.loop = waitLoop (rs.map result ++ [Event.doneChan]) := by
  rcases hI.loop with h | ⟨_, hrecv, hcl, hloop⟩
  · rw [h.1] at hph; cases hph
  · have hz := hI.closed hcl
    have hp := hI.hist
    rw [hrecv, delivered_of_none_sending _ hz.1, hI.data] at hp
    simp only [Option.toList, List.append_nil] at hp
    have hperm : (s.hist.map ofRet).Perm all := by
      have := hp.map ofRet
      rwa [List.map_map, show (ofRet ∘ toRet) = id from rfl, List.map_id] at this
    have hhist : s.hist = (s.hist.map ofRet).map toRet := by
      rw [List.map_map]
      symm
      conv_rhs => rw [← List.map_id s.hist]
      apply List.map_congr_left
      intro r hr
      obtain ⟨x, _, rfl⟩ := List.mem_map.mp (hp.subset hr)
      rfl
    refine ⟨s.hist.map ofRet, hperm, hhist, hrecv, hcl, ?_, ?_⟩
    · have := hI.wg_eq
      omega
    · rw [hloop, ← map_statusChan_toRet, ← hhist]

theorem lookup_mergeAll (rs : List (String × StockStatus)) (hnd : (rs.map Prod.fst).Nodup)
    (r : String × StockStatus) (hr : r ∈ rs) : (mergeAll rs).1.lookup r.1 = some r.2 := by
  have h : r.2 ∈ (mergeAll rs).1.lookup r.1 := by
    rw [Finmap.mem_lookup_iff, mergeAll_entries rs hnd]
    exact Multiset.mem_coe.mpr (List.mem_map.mpr ⟨r, hr, rfl⟩)
  exact h

theorem resultsOf_fst {Stock : Type} (valuate : String → Stock → StockStatus)
    (stocks : List (String × Stock)) :
    (resultsOf valuate stocks).map Prod.fst = stocks.map Prod.fst := by
  unfold resultsOf
  rw [List.map_map]
  rfl

/-! ## Properties of the merge loop -/

/-- C1 (sum property). For every finite sequence of delivered results with
pairwise distinct codes, followed by the completion signal, the handler leaves
the loop and the totals `Spent`, `Earned`, `Remain` and `Income` it passes on
are each equal to the sum of that field over all entries of the status map it
passes on (sums of Go `int`). Whenever the unbounded sum of a field over the
map fits a Go `int`, the total is that unbounded sum. -/
theorem sum_property (rs : List (String × StockStatus)) (hnd : (rs.map Prod.fst).Nodup) :
    ∃ m agg, rendered (rs.map result ++ [Event.doneChan]) = some (m, agg) ∧
      (agg.Spent = sumOver (fun s => s.Spent) m ∧ agg.Earned = sumOver (fun s => s.Earned) m ∧
        agg.Remain = sumOver (fun s => s.Remain) m ∧
        agg.Income = sumOver (fun s => s.Income) m) ∧
      ((IsInt64 (exactSum (fun s => s.Spent) m) → agg.Spent = exactSum (fun s => s.Spent) m) ∧
        (IsInt64 (exactSum (fun s => s.Earned) m) →
          agg.Earned = exactSum (fun s => s.Earned) m) ∧
        (IsInt64 (exactSum (fun s => s.Remain) m) →
          agg.Remain = exactSum (fun s => s.Remain) m) ∧
        (IsInt64 (exactSum (fun s => s.Income) m) →
          agg.Income = exactSum (fun s => s.Income) m)) := by
  have hS := sumOver_mergeAll (fun s => s.Spent) rs hnd
  have hE := sumOver_mergeAll (fun s => s.Earned) rs hnd
  have hR := sumOver_mergeAll (fun s => s.Remain) rs hnd
  have hI := sumOver_mergeAll (fun s => s.Income) rs hnd
  have hsnd := mergeAll_snd rs
  have key : (computeYield (mergeAll rs).2).Spent = sumOver (fun s => s.Spent) (mergeAll rs).1 ∧
      (computeYield (mergeAll rs).2).Earned = sumOver (fun s => s.Earned) (mergeAll rs).1 ∧
      (computeYield (mergeAll rs).2).Remain = sumOver (fun s => s.Remain) (mergeAll rs).1 ∧
      (computeYield (mergeAll rs).2).Income = sumOver (fun s => s.Income) (mergeAll rs).1 := by
    rw [hS, hE, hR, hI, hsnd]
    exact ⟨rfl, rfl, rfl, rfl⟩
  refine ⟨(mergeAll rs).1, computeYield (mergeAll rs).2, rendered_results_doneChan rs [], key, ?_⟩
  obtain ⟨k1, k2, k3, k4⟩ := key
  refine ⟨fun h => ?_, fun h => ?_, fun h => ?_, fun h => ?_⟩
  · rw [k1, sumOver_eq_wrapInt_exactSum, wrapInt_of_isInt64 h]
  · rw [k2, sumOver_eq_wrapInt_exactSum, wrapInt_of_isInt64 h]
  · rw [k3, sumOver_eq_wrapInt_exactSum, wrapInt_of_isInt64 h]
  · rw [k4, sumOver_eq_wrapInt_exactSum, wrapInt_of_isInt64 h]

/-- Witness of C1: two results with distinct codes. -/
theorem sum_property_witness :
    ∃ m agg, rendered ([("A", (⟨100, 0, 150, 50, Float32.zero⟩ : StockStatus)),
        ("B", ⟨50, 20, 10, -20, Float32.zero⟩)].map result ++ [Event.doneChan]) = some (m, agg) ∧
      (agg.Spent = sumOver (fun s => s.Spent) m ∧ agg.Earned = sumOver (fun s => s.Earned) m ∧
        agg.Remain = sumOver (fun s => s.Remain) m ∧
        agg.Income = sumOver (fun s => s.Income) m) ∧
      ((IsInt64 (exactSum (fun s => s.Spent) m) → agg.Spent = exactSum (fun s => s.Spent) m) ∧
        (IsInt64 (exactSum (fun s => s.Earned) m) →
          agg.Earned = exactSum (fun s => s.Earned) m) ∧
        (IsInt64 (exactSum (fun s => s.Remain) m) →
          agg.Remain = exactSum (fun s => s.Remain) m) ∧
        (IsInt64 (exactSum (fun s => s.Income) m) →
          agg.Income = exactSum (fun s => s.Income) m)) :=
  sum_property [("A", ⟨100, 0, 150, 50, Float32.zero⟩), ("B", ⟨50, 20, 10, -20, Float32.zero⟩)]
    (by decide)

/-- C2 (order independence). For every list of delivered results and every
permutation of it, the loop run on the two lists ends with the same totals:
the whole `sum` record is the same, `Spent`, `Earned`, `Remain`, `Income` and
the `Yield` computed from them (the same `float32` value, be it a NaN). When
the codes are pairwise distinct the two status maps are the same map as well. -/
theorem order_independence (l1 l2 : List (String × StockStatus)) (hp : l1.Perm l2) :
    (waitLoop (l1.map result ++ [Event.doneChan])).phase = .done ∧
    (waitLoop (l2.map result ++ [Event.doneChan])).phase = .done ∧
    (waitLoop (l1.map result ++ [Event.doneChan])).sum =
      (waitLoop (l2.map result ++ [Event.doneChan])).sum ∧
    ((l1.map Prod.fst).Nodup →
      (waitLoop (l1.map result ++ [Event.doneChan])).stockMap =
        (waitLoop (l2.map result ++ [Event.doneChan])).stockMap) := by
  rw [waitLoop_results_doneChan, waitLoop_results_doneChan]
  refine ⟨rfl, rfl, ?_, fun hnd => ?_⟩
  · show computeYield _ = computeYield _
    rw [mergeAll_perm_snd hp]
  · exact mergeAll_perm_fst hp hnd

/-- Witness of C2: three results and a rotation of them. -/
theorem order_independence_witness :
    (waitLoop ([("A", (⟨100, 0, 150, 50, Float32.zero⟩ : StockStatus)),
        ("B", ⟨50, 20, 10, -20, Float32.zero⟩), ("C", ⟨7, 1, 9, 3, Float32.zero⟩)].map result ++
        [Event.doneChan])).sum =
      (waitLoop ([("C", (⟨7, 1, 9, 3, Float32.zero⟩ : StockStatus)),
        ("A", ⟨100, 0, 150, 50, Float32.zero⟩), ("B", ⟨50, 20, 10, -20, Float32.zero⟩)].map result ++
        [Event.doneChan])).sum ∧
    (waitLoop ([("A", (⟨100, 0, 150, 50, Float32.zero⟩ : StockStatus)),
        ("B", ⟨50, 20, 10, -20, Float32.zero⟩), ("C", ⟨7, 1, 9, 3, Float32.zero⟩)].map result ++
        [Event.doneChan])).stockMap =
      (waitLoop ([("C", (⟨7, 1, 9, 3, Float32.zero⟩ : StockStatus)),
        ("A", ⟨100, 0, 150, 50, Float32.zero⟩), ("B", ⟨50, 20, 10, -20, Float32.zero⟩)].map result ++
        [Event.doneChan])).stockMap :=
  have h := order_independence
    [("A", ⟨100, 0, 150, 50, Float32.zero⟩), ("B", ⟨50, 20, 10, -20, Float32.zero⟩),
      ("C", ⟨7, 1, 9, 3, Float32.zero⟩)]
    [("C", ⟨7, 1, 9, 3, Float32.zero⟩), ("A", ⟨100, 0, 150, 50, Float32.zero⟩),
      ("B", ⟨50, 20, 10, -20, Float32.zero⟩)] (by decide)
  ⟨h.2.2.1, h.2.2.2 (by decide)⟩

/-- C7 (concrete scenario). Merging A = (Spent 100, Earned 0, Remain 150,
Income 50) and B = (Spent 50, Earned 20, Remain 10, Income -20), whatever their
own `Yield` fields, in either order of arrival, passes on the status map with
exactly the entries A and B and the totals Spent 150, Earned 20, Remain 160,
Income 30, with the `float32` Yield `10485760 * 2^-19`, which is 20. -/
theorem concrete_scenario (yA yB : Float32) :
    rendered [result ("A", statusA yA), result ("B", statusB yB), Event.doneChan] =
      some (scenarioMap yA yB, ⟨150, 20, 160, 30, Float32.fin false 10485760 (-19)⟩) ∧
    rendered [result ("B", statusB yB), result ("A", statusA yA), Event.doneChan] =
      some (scenarioMap yA yB, ⟨150, 20, 160, 30, Float32.fin false 10485760 (-19)⟩) ∧
    (scenarioMap yA yB).keys = {"A", "B"} ∧
    (scenarioMap yA yB).lookup "A" = some (statusA yA) ∧
    (scenarioMap yA yB).lookup "B" = some (statusB yB) ∧
    (Float32.fin false 10485760 (-19)).toRat = some 20 ∧
    f32OfInt 20 = Float32.fin false 10485760 (-19) := by
  have hne : ("B" : String) ≠ "A" := by decide
  have hY : computeYield ⟨150, 20, 160, 30, Float32.zero⟩ =
      ⟨150, 20, 160, 30, Float32.fin false 10485760 (-19)⟩ := by decide
  have hAB : (mergeAll [("A", statusA yA), ("B", statusB yB)]).2 =
      ⟨150, 20, 160, 30, Float32.zero⟩ := by
    rw [mergeAll_snd]
    simp only [List.map, List.sum_cons, List.sum_nil, statusA, statusB]
    decide
  have hBA : (mergeAll [("B", statusB yB), ("A", statusA yA)]).2 =
      ⟨150, 20, 160, 30, Float32.zero⟩ := by
    rw [mergeAll_snd]
    simp only [List.map, List.sum_cons, List.sum_nil, statusA, statusB]
    decide
  have mAB : (mergeAll [("A", statusA yA), ("B", statusB yB)]).1 = scenarioMap yA yB := by
    simp only [mergeAll, List.foldl, mergeStatus, scenarioMap]
    exact Finmap.insert_insert_of_ne _ hne.symm
  have mBA : (mergeAll [("B", statusB yB), ("A", statusA yA)]).1 = scenarioMap yA yB := by
    simp only [mergeAll, List.foldl, mergeStatus, scenarioMap]
  refine ⟨?_, ?_, ?_, ?_, ?_, ?_, by decide⟩
  · have h := rendered_results_doneChan [("A", statusA yA), ("B", statusB yB)] []
    simp only [List.map, List.cons_append, List.nil_append] at h
    rw [h, hAB, hY, mAB]
  · have h := rendered_results_doneChan [("B", statusB yB), ("A", statusA yA)] []
    simp only [List.map, List.cons_append, List.nil_append] at h
    rw [h, hBA, hY, mBA]
  · unfold scenarioMap
    rw [keys_insert, keys_insert, Finmap.keys_empty]
    rfl
  · unfold scenarioMap
    rw [Finmap.lookup_insert]
  · unfold scenarioMap
    rw [Finmap.lookup_insert_of_ne _ hne, Finmap.lookup_insert]
  · norm_num [Float32.toRat]

/-- C8 (single merge step). In the loop, receiving a result `(k, s)` keeps the
loop collecting; the new map maps `k` to `s` and agrees with the old map at
every other code, its size is unchanged when `k` was present and grows by one
otherwise; `Spent`, `Earned`, `Remain` and `Income` each become the Go sum of
the old total and the field of `s` (the exact sum whenever that fits a Go
`int`); `Yield` is unchanged. -/
theorem merge_step (st : LoopState) (hph : st.phase = .collecting) (k : String)
    (s : StockStatus) :
    waitLoopStep st (result (k, s)) =
      { phase := .collecting
        stockMap := (mergeStatus st.stockMap st.sum k s).1
        sum := (mergeStatus st.stockMap st.sum k s).2 } ∧
    (mergeStatus st.stockMap st.sum k s).1.lookup k = some s ∧
    (∀ k2, k2 ≠ k → (mergeStatus st.stockMap st.sum k s).1.lookup k2 = st.stockMap.lookup k2) ∧
    (k ∈ st.stockMap →
      (mergeStatus st.stockMap st.sum k s).1.keys.card = st.stockMap.keys.card) ∧
    (k ∉ st.stockMap →
      (mergeStatus st.stockMap st.sum k s).1.keys.card = st.stockMap.keys.card + 1) ∧
    ((mergeStatus st.stockMap st.sum k s).2.Spent = addInt st.sum.Spent s.Spent ∧
      (mergeStatus st.stockMap st.sum k s).2.Earned = addInt st.sum.Earned s.Earned ∧
      (mergeStatus st.stockMap st.sum k s).2.Remain = addInt st.sum.Remain s.Remain ∧
      (mergeStatus st.stockMap st.sum k s).2.Income = addInt st.sum.Income s.Income) ∧
    ((IsInt64 (st.sum.Spent + s.Spent) →
        (mergeStatus st.stockMap st.sum k s).2.Spent = st.sum.Spent + s.Spent) ∧
      (IsInt64 (st.sum.Earned + s.Earned) →
        (mergeStatus st.stockMap st.sum k s).2.Earned = st.sum.Earned + s.Earned) ∧
      (IsInt64 (st.sum.Remain + s.Remain) →
        (mergeStatus st.stockMap st.sum k s).2.Remain = st.sum.Remain + s.Remain) ∧
      (IsInt64 (st.sum.Income + s.Income) →
        (mergeStatus st.stockMap st.sum k s).2.Income = st.sum.Income + s.Income)) ∧
    (mergeStatus st.stockMap st.sum k s).2.Yield = st.sum.Yield := by
  refine ⟨waitLoopStep_result st hph (k, s), ?_, ?_, ?_, ?_, ⟨rfl, rfl, rfl, rfl⟩,
    ⟨fun h => wrapInt_of_isInt64 h, fun h => wrapInt_of_isInt64 h,
      fun h => wrapInt_of_isInt64 h, fun h => wrapInt_of_isInt64 h⟩, rfl⟩
  · exact Finmap.lookup_insert _
  · intro k2 hk2
    exact Finmap.lookup_insert_of_ne _ hk2
  · intro hk
    show (Finmap.insert k s st.stockMap).keys.card = _
    rw [keys_insert, Finset.insert_eq_of_mem (Finmap.mem_keys.mpr hk)]
  · intro hk
    show (Finmap.insert k s st.stockMap).keys.card = _
    rw [keys_insert, Finset.card_insert_of_not_mem (fun h => hk (Finmap.mem_keys.mp h))]

/-- Witness of C8: a second result for the code `"A"` overwrites the entry of
the first. -/
theorem merge_step_witness :
    (mergeStatus (waitLoop [result ("A", statusA Float32.zero)]).stockMap
        (waitLoop [result ("A", statusA Float32.zero)]).sum "A"
        (statusB Float32.zero)).1.keys.card =
      (waitLoop [result ("A", statusA Float32.zero)]).stockMap.keys.card ∧
    (mergeStatus (waitLoop [result ("A", statusA Float32.zero)]).stockMap
        (waitLoop [result ("A", statusA Float32.zero)]).sum "A"
        (statusB Float32.zero)).1.lookup "B" =
      (waitLoop [result ("A", statusA Float32.zero)]).stockMap.lookup "B" ∧
    (mergeStatus (waitLoop [result ("A", statusA Float32.zero)]).stockMap
        (waitLoop [result ("A", statusA Float32.zero)]).sum "A"
        (statusB Float32.zero)).2.Spent = 100 + 50 :=
  have h := merge_step (waitLoop [result ("A", statusA Float32.zero)]) (by decide) "A"
    (statusB Float32.zero)
  ⟨h.2.2.2.1 (by decide), h.2.2.1 "B" (by decide), h.2.2.2.2.2.2.1.1 (by decide)⟩

/-- C9 (merge-loop state machine). Every finite trace of results and
completion events is a list `pre` of results, possibly followed by a first
completion event and more events. In the first case the loop is still
collecting, it holds the fold of all of `pre`, however many results that is,
and `Yield` is still the zero of line 93; nothing is passed on. In the second
case the loop is left: the map and totals are the fold of `pre`, the results
before the first completion event, `Yield` is computed there, by line 121, and
the events after it change nothing. -/
theorem merge_loop_state_machine (trace : List Event)
    (hwf : ∀ ev ∈ trace, ev.hasStatus = true) :
    ∃ pre : List (String × StockStatus),
      (mergeAll pre).1.keys = (pre.map Prod.fst).toFinset ∧
      (mergeAll pre).2.Yield = Float32.zero ∧
      ((trace = pre.map result ∧
          waitLoop trace =
            { phase := .collecting, stockMap := (mergeAll pre).1, sum := (mergeAll pre).2 } ∧
          rendered trace = none) ∨
        (∃ post, trace = pre.map result ++ Event.doneChan :: post ∧
          waitLoop trace =
            { phase := .done, stockMap := (mergeAll pre).1,
              sum := computeYield (mergeAll pre).2 } ∧
          waitLoop trace = waitLoop (pre.map result ++ [Event.doneChan]) ∧
          rendered trace = some ((mergeAll pre).1, computeYield (mergeAll pre).2))) := by
  obtain ⟨pre, h | ⟨post, h⟩⟩ := trace_shape trace hwf
  · refine ⟨pre, mergeAll_keys pre, by rw [mergeAll_snd], Or.inl ⟨h, ?_, ?_⟩⟩
    · rw [h, waitLoop_results]
    · unfold rendered
      rw [h, waitLoop_results]
  · refine ⟨pre, mergeAll_keys pre, by rw [mergeAll_snd], Or.inr ⟨post, h, ?_, ?_, ?_⟩⟩
    · rw [h, waitLoop_results_doneChan]
    · rw [h, waitLoop_results_doneChan, waitLoop_results_doneChan]
    · rw [h, rendered_results_doneChan]

/-- Witness of C9: two results, the completion event, and a late result that is
not merged. -/
theorem merge_loop_state_machine_witness :
    ∃ pre : List (String × StockStatus),
      (mergeAll pre).1.keys = (pre.map Prod.fst).toFinset ∧
      (mergeAll pre).2.Yield = Float32.zero ∧
      (([result ("A", statusA Float32.zero), result ("B", statusB Float32.zero),
            Event.doneChan, result ("C", statusA Float32.zero)] = pre.map result ∧
          waitLoop [result ("A", statusA Float32.zero), result ("B", statusB Float32.zero),
            Event.doneChan, result ("C", statusA Float32.zero)] =
            { phase := .collecting, stockMap := (mergeAll pre).1, sum := (mergeAll pre).2 } ∧
          rendered [result ("A", statusA Float32.zero), result ("B", statusB Float32.zero),
            Event.doneChan, result ("C", statusA Float32.zero)] = none) ∨
        (∃ post, [result ("A", statusA Float32.zero), result ("B", statusB Float32.zero),
            Event.doneChan, result ("C", statusA Float32.zero)] =
            pre.map result ++ Event.doneChan :: post ∧
          waitLoop [result ("A", statusA Float32.zero), result ("B", statusB Float32.zero),
            Event.doneChan, result ("C", statusA Float32.zero)] =
            { phase := .done, stockMap := (mergeAll pre).1,
              sum := computeYield (mergeAll pre).2 } ∧
          waitLoop [result ("A", statusA Float32.zero), result ("B", statusB Float32.zero),
            Event.doneChan, result ("C", statusA Float32.zero)] =
            waitLoop (pre.map result ++ [Event.doneChan]) ∧
          rendered [result ("A", statusA Float32.zero), result ("B", statusB Float32.zero),
            Event.doneChan, result ("C", statusA Float32.zero)] =
            some ((mergeAll pre).1, computeYield (mergeAll pre).2))) :=
  merge_loop_state_machine
    [result ("A", statusA Float32.zero), result ("B", statusB Float32.zero), Event.doneChan,
      result ("C", statusA Float32.zero)] (by decide)

/-- Helper for C10: one merge step keeps the relation. -/
theorem linear_mergeStatus (m : StockStatusMap) (sm : StockStatus) (k : String)
    (s : StockStatus) (hsm : Linear sm) (hs : Linear s) : Linear (mergeStatus m sm k s).2 := by
  unfold Linear at *
  show addInt sm.Income s.Income =
    subInt (addInt (addInt sm.Earned s.Earned) (addInt sm.Remain s.Remain))
      (addInt sm.Spent s.Spent)
  rw [hsm, hs]
  unfold subInt addInt wrapInt
  omega

theorem linear_foldl (rs : List (String × StockStatus)) (m : StockStatusMap) (sm : StockStatus)
    (hsm : Linear sm) (h : ∀ r ∈ rs, Linear r.2) :
    Linear (rs.foldl (fun acc r => mergeStatus acc.1 acc.2 r.1 r.2) (m, sm)).2 := by
  induction rs generalizing m sm with
  | nil => exact hsm
  | cons r rs ih =>
    rw [List.foldl_cons]
    exact ih _ _ (linear_mergeStatus m sm r.1 r.2 hsm (h r (List.mem_cons_self _ _)))
      (fun r2 hr2 => h r2 (List.mem_cons_of_mem _ hr2))

theorem linear_mergeAll (rs : List (String × StockStatus)) (h : ∀ r ∈ rs, Linear r.2) :
    Linear (mergeAll rs).2 :=
  linear_foldl rs ∅ StockStatus.empty (by decide) h

/-- C10 (linearity invariant). The zero totals of line 93 satisfy
`Income = Earned + Remain - Spent`; one merge step keeps the relation when the
merged status satisfies it, whether or not its code is already in the map; so
if every delivered result satisfies it, the totals satisfy it after every
merge step and when the loop is left. The relation is the one of Go `int`
arithmetic: a status whose `Income` is a Go `int` and is exactly
`Earned + Remain - Spent` satisfies it, and totals that satisfy it are exactly
related whenever `Earned + Remain - Spent` of the totals fits a Go `int`. -/
theorem linearity_invariant :
    Linear LoopState.init.sum ∧
    (∀ (m : StockStatusMap) (sm : StockStatus) (k : String) (s : StockStatus),
      Linear sm → Linear s → Linear (mergeStatus m sm k s).2) ∧
    (∀ rs : List (String × StockStatus), (∀ r ∈ rs, Linear r.2) →
      (∀ n, Linear (waitLoop ((rs.take n).map result)).sum) ∧
      Linear (waitLoop (rs.map result ++ [Event.doneChan])).sum) ∧
    (∀ s : StockStatus, IsInt64 s.Income → s.Income = s.Earned + s.Remain - s.Spent →
      Linear s) ∧
    (∀ s : StockStatus, Linear s → IsInt64 (s.Earned + s.Remain - s.Spent) →
      s.Income = s.Earned + s.Remain - s.Spent) := by
  refine ⟨by decide, linear_mergeStatus, fun rs h => ⟨fun n => ?_, ?_⟩, ?_, ?_⟩
  · rw [waitLoop_results]
    exact linear_mergeAll _ (fun r hr => h r (List.mem_of_mem_take hr))
  · rw [waitLoop_results_doneChan]
    exact linear_mergeAll rs h
  · intro s hI hs
    unfold Linear subInt addInt
    rw [wrapInt_sub_left, ← hs, wrapInt_of_isInt64 hI]
  · intro s hs hI
    unfold Linear subInt addInt at hs
    rw [wrapInt_sub_left, wrapInt_of_isInt64 hI] at hs
    exact hs

/-- Witness of C10: the two positions of the concrete scenario, the code `"A"`
delivered twice. -/
theorem linearity_invariant_witness :
    Linear (waitLoop ([("A", statusA Float32.zero), ("B", statusB Float32.zero),
        ("A", statusA Float32.zero)].map result ++ [Event.doneChan])).sum ∧
    Linear (statusB Float32.zero) :=
  ⟨(linearity_invariant.2.2.1
    [("A", statusA Float32.zero), ("B", statusB Float32.zero), ("A", statusA Float32.zero)]
    (by decide)).2,
   linearity_invariant.2.2.2.1 (statusB Float32.zero) (by decide) (by decide)⟩

/-- Counterexample to C6: with no position at all the total `Spent` is 0 and the
`Yield` passed on to the renderer is a NaN; with one position of `Spent` 0 and
`Income` 5 it is an infinity. Neither is 0, and no field flags them. -/
theorem zero_spent_yield_counterexample :
    rendered [Event.doneChan] = some (∅, ⟨0, 0, 0, 0, Float32.nan⟩) ∧
    rendered [result ("A", ⟨0, 5, 0, 5, Float32.zero⟩), Event.doneChan] =
      some (Finmap.singleton "A" ⟨0, 5, 0, 5, Float32.zero⟩, ⟨0, 5, 0, 5, Float32.inf false⟩) ∧
    Float32.nan ≠ Float32.zero ∧ Float32.nan.isFinite = false ∧
    (Float32.inf false).isFinite = false := by
  decide

/-- C6 as amended. Whenever the total `Spent` is 0 when the loop is left, the
`Yield` passed on to the renderer is not a finite number: it is a NaN when the
total `Income` is 0 (the empty portfolio included), and the infinity of the
sign of `Income` otherwise. -/
theorem zero_spent_yield (pre : List (String × StockStatus)) (post : List Event)
    (h : (mergeAll pre).2.Spent = 0) :
    ∃ m agg, rendered (pre.map result ++ Event.doneChan :: post) = some (m, agg) ∧
      agg.Spent = 0 ∧ agg.Income = (mergeAll pre).2.Income ∧
      agg.Yield = (if agg.Income = 0 then Float32.nan
        else Float32.inf (decide (agg.Income < 0))) ∧
      agg.Yield.isFinite = false := by
  refine ⟨_, _, rendered_results_doneChan pre post, h, rfl, ?_, ?_⟩
  · exact computeYield_spent_zero _ h
  · rw [computeYield_spent_zero _ h]
    show (if (mergeAll pre).2.Income = 0 then Float32.nan
      else Float32.inf (decide ((mergeAll pre).2.Income < 0))).isFinite = false
    split_ifs <;> rfl

/-- Witness of C6 as amended: a position sold at a loss that never cost anything. -/
theorem zero_spent_yield_witness :
    ∃ m agg, rendered ([("A", (⟨0, 0, 0, -3, Float32.zero⟩ : StockStatus))].map result ++
        Event.doneChan :: []) = some (m, agg) ∧
      agg.Spent = 0 ∧
      agg.Income = (mergeAll [("A", (⟨0, 0, 0, -3, Float32.zero⟩ : StockStatus))]).2.Income ∧
      agg.Yield = (if agg.Income = 0 then Float32.nan
        else Float32.inf (decide (agg.Income < 0))) ∧
      agg.Yield.isFinite = false :=
  zero_spent_yield [("A", ⟨0, 0, 0, -3, Float32.zero⟩)] [] (by decide)

/-! ## Properties of the goroutines -/

/-- C3 (key set). Let one task be launched per entry of `user.Stocks`, whose
codes are pairwise distinct, each task delivering one result with the code it
was given. Some schedule lets the handler leave the loop; and in every
schedule, once the handler has left the loop, the key set of the status map is
the key set of `user.Stocks`, the map has exactly as many entries as there are
positions, and every code is mapped to the status its task computed. -/
theorem key_set {Stock : Type} (valuate : String → Stock → StockStatus)
    (stocks : List (String × Stock)) (hnd : (stocks.map Prod.fst).Nodup) :
    (∃ sched s, (Sys.init valuate stocks).exec sched = some s ∧ s.loop.phase = .done) ∧
    ∀ sched s, (Sys.init valuate stocks).exec sched = some s → s.loop.phase = .done →
      s.loop.stockMap.keys = (stocks.map Prod.fst).toFinset ∧
      s.loop.stockMap.keys.card = stocks.length ∧
      Multiset.card s.loop.stockMap.entries = stocks.length ∧
      ∀ p ∈ stocks, s.loop.stockMap.lookup p.1 = some (valuate p.1 p.2) := by
  have hI0 := inv_init valuate stocks
  refine ⟨exists_exec_done _ _ le_rfl hI0, fun sched s he hph => ?_⟩
  obtain ⟨rs, hperm, _, _, _, _, hloop⟩ := done_hist (inv_exec sched hI0 he) hph
  have hnd2 : ((resultsOf valuate stocks).map Prod.fst).Nodup := by
    rw [resultsOf_fst]; exact hnd
  have hnd1 : (rs.map Prod.fst).Nodup := (hperm.map _).nodup_iff.mpr hnd2
  have hmap : s.loop.stockMap = (mergeAll (resultsOf valuate stocks)).1 := by
    rw [hloop, waitLoop_results_doneChan]
    exact mergeAll_perm_fst hperm hnd1
  have hkeys : s.loop.stockMap.keys = (stocks.map Prod.fst).toFinset := by
    rw [hmap, mergeAll_keys, resultsOf_fst]
  refine ⟨hkeys, ?_, ?_, ?_⟩
  · rw [hkeys, List.toFinset_card_of_nodup hnd, List.length_map]
  · rw [hmap, mergeAll_entries _ hnd2, Multiset.coe_card, List.length_map]
    unfold resultsOf
    rw [List.length_map]
  · intro p hp
    rw [hmap]
    exact lookup_mergeAll _ hnd2 (p.1, valuate p.1 p.2)
      (List.mem_map.mpr ⟨p, hp, rfl⟩)

/-- Witness of C3: three positions, their results arriving in the order B, A, C. -/
theorem key_set_witness :
    ∃ s, (Sys.init valuate3 stocks3).exec sched3 = some s ∧ s.loop.phase = .done ∧
      s.loop.stockMap.keys = {"A", "B", "C"} ∧ s.loop.stockMap.keys.card = 3 := by
  have hsome : ((Sys.init valuate3 stocks3).exec sched3).map (fun s => s.loop.phase) =
      some .done := by decide
  cases he : (Sys.init valuate3 stocks3).exec sched3 with
  | none => rw [he] at hsome; cases hsome
  | some s =>
    rw [he] at hsome
    have hph : s.loop.phase = .done := Option.some.inj hsome
    have h := (key_set valuate3 stocks3 (by decide)).2 sched3 s he hph
    exact ⟨s, rfl, hph, h.1, h.2.1⟩

/-- C4 (termination after exactly N results). In every state the goroutines
can reach after `N` tasks are launched: at most `N` results have been merged;
if the handler has left the loop, it has left it through the completion signal,
`doneChan` is closed, the wait counter is zero and exactly `N` results have
been merged; `doneChan` is closed only with the wait counter at zero; at most
`3 * N + 2` actions have taken place; as long as the handler is in the loop
some action is enabled, and some continuation lets it leave the loop. -/
theorem termination_after_N {Stock : Type} (valuate : String → Stock → StockStatus)
    (stocks : List (String × Stock)) (sched : List Action) (s : Sys)
    (he : (Sys.init valuate stocks).exec sched = some s) :
    s.hist.length ≤ stocks.length ∧
    (s.loop.phase ≠ .collecting →
      s.loop.phase = .done ∧ s.doneClosed = true ∧ s.wg = 0 ∧ s.recvd = none ∧
        s.hist.length = stocks.length) ∧
    (s.doneClosed = true → s.wg = 0 ∧ s.hist.length + s.recvd.toList.length = stocks.length) ∧
    sched.length ≤ 3 * stocks.length + 2 ∧
    (s.loop.phase = .collecting → ∃ a s2, s.step a = some s2) ∧
    (∃ rest s2, s.exec rest = some s2 ∧ s2.loop.phase = .done) := by
  have hI := inv_exec sched (inv_init valuate stocks) he
  have hlen : s.tasks.length = stocks.length := by
    have := congrArg List.length hI.data
    rw [List.length_map] at this
    rw [this]
    unfold resultsOf
    rw [List.length_map]
  have hh := hI.hist.length_eq
  rw [List.length_append] at hh
  have hle := delivered_length_le s.tasks
  have hclosed : s.doneClosed = true →
      s.wg = 0 ∧ s.hist.length + s.recvd.toList.length = stocks.length := by
    intro hc
    have hz := hI.closed hc
    have hw := hI.wg_eq
    rw [delivered_of_none_sending _ hz.1, List.length_map, List.length_map] at hh
    constructor <;> omega
  refine ⟨by omega, fun hph => ?_, hclosed, ?_, fun hph => progress hI hph,
    exists_exec_done _ s le_rfl hI⟩
  · rcases hI.loop with h | ⟨h1, h2, h3, _⟩
    · exact absurd h.1 hph
    · have := hclosed h3
      rw [h2] at this
      exact ⟨h1, h3, this.1, h2, by simpa using this.2⟩
  · have := measure_exec sched he
    rw [measure_init] at this
    omega

/-- Witness of C4: a run of three tasks that stops with one result still to
come; the handler is still in the loop and two results are merged. -/
theorem termination_after_N_witness :
    ∃ s, (Sys.init valuate3 stocks3).exec
        [.send 1, .merge, .send 0, .wgDone 1, .merge, .wgDone 0] = some s ∧
      s.hist.length ≤ 3 ∧
      (s.loop.phase ≠ .collecting → s.hist.length = 3) ∧
      ∃ rest s2, s.exec rest = some s2 ∧ s2.loop.phase = .done := by
  have hsome : ((Sys.init valuate3 stocks3).exec
      [.send 1, .merge, .send 0, .wgDone 1, .merge, .wgDone 0]).isSome = true := by decide
  cases he : (Sys.init valuate3 stocks3).exec
      [.send 1, .merge, .send 0, .wgDone 1, .merge, .wgDone 0] with
  | none => rw [he] at hsome; cases hsome
  | some s =>
    have h := termination_after_N valuate3 stocks3 _ s he
    exact ⟨s, rfl, h.1, fun hph => (h.2.1 hph).2.2.2.2, h.2.2.2.2.2⟩

/-- C5 (empty input). With `user.Stocks` empty no task is launched and the wait
counter is zero; in every state the goroutines can reach, no result has been
received or merged, the status map is empty and `Spent`, `Earned`, `Remain` and
`Income` are zero; the schedule that closes `doneChan` and takes the completion
case is enabled from the start and leaves the loop with that map and those
totals, which is what is passed on to the renderer. -/
theorem empty_input {Stock : Type} (valuate : String → Stock → StockStatus) :
    (Sys.init valuate []).tasks = [] ∧ (Sys.init valuate []).wg = 0 ∧
    (∀ sched s, (Sys.init valuate []).exec sched = some s →
      s.tasks = [] ∧ s.hist = [] ∧ s.recvd = none ∧ s.loop.stockMap = ∅ ∧
      s.loop.sum.Spent = 0 ∧ s.loop.sum.Earned = 0 ∧ s.loop.sum.Remain = 0 ∧
      s.loop.sum.Income = 0 ∧ sched.length ≤ 2) ∧
    (∃ s, (Sys.init valuate []).exec [.closeDone, .recvDone] = some s ∧
      s.loop.phase = .done ∧ s.loop.stockMap = ∅ ∧ s.loop.sum.Spent = 0 ∧
      s.loop.sum.Earned = 0 ∧ s.loop.sum.Remain = 0 ∧ s.loop.sum.Income = 0) ∧
    (∃ agg, rendered [Event.doneChan] = some (∅, agg) ∧ agg.Spent = 0 ∧ agg.Earned = 0 ∧
      agg.Remain = 0 ∧ agg.Income = 0) := by
  refine ⟨rfl, rfl, fun sched s he => ?_, ⟨_, rfl, rfl, rfl, rfl, rfl, rfl, rfl⟩,
    ⟨⟨0, 0, 0, 0, Float32.nan⟩, by decide, rfl, rfl, rfl, rfl⟩⟩
  have hI := inv_exec sched (inv_init valuate []) he
  have ht : s.tasks = [] := List.map_eq_nil_iff.mp hI.data
  have hh := hI.hist
  rw [ht] at hh
  have hnil : s.hist ++ s.recvd.toList = [] := List.Perm.eq_nil hh
  obtain ⟨h1, h2⟩ := List.append_eq_nil.mp hnil
  have hr : s.recvd = none := by
    cases hx : s.recvd with
    | none => rfl
    | some r => rw [hx] at h2; cases h2
  have hm := measure_exec sched he
  rw [measure_init] at hm
  have hlen : sched.length ≤ 2 := by
    simp only [List.length_nil] at hm
    omega
  rcases hI.loop with h | ⟨_, _, _, h⟩
  · rw [h1] at h
    rw [h.2]
    exact ⟨ht, h1, hr, rfl, rfl, rfl, rfl, rfl, hlen⟩
  · rw [h1] at h
    rw [h]
    exact ⟨ht, h1, hr, rfl, rfl, rfl, rfl, rfl, hlen⟩

/-- Witness of C5: the state after `doneChan` is closed. -/
theorem empty_input_witness :
    ∃ s, (Sys.init valuate3 []).exec [.closeDone] = some s ∧ s.hist = [] ∧
      s.loop.stockMap = ∅ ∧ s.loop.sum.Spent = 0 :=
  ⟨_, rfl, ((empty_input valuate3).2.2.1 [.closeDone] _ rfl).2.1,
    ((empty_input valuate3).2.2.1 [.closeDone] _ rfl).2.2.2.1,
    ((empty_input valuate3).2.2.1 [.closeDone] _ rfl).2.2.2.2.1⟩

end MBWSServer
